import Mathlib

/-!
Verification of the wealth-evolution engine of the `local-finance` repository
(`src/engine.py`), against its natural-language specification.

Modelling conventions (shallow embedding of the Python source):
* Monetary amounts, prices and quantities are rationals (`ℚ`); the Python
  floats are treated as exact numbers, matching the spec's "no drift" reading.
* Calendar dates are integers (`ℤ`), one unit per day; `pd.Timestamp`
  arithmetic (`+ timedelta(days=1)`, daily `pd.date_range`) becomes integer
  arithmetic.
* Python dicts keyed by strings are association lists with unique keys;
  `setA` updates the first matching key in place and appends a fresh key at
  the end, exactly like insertion-ordered Python dicts.
* The day-by-day loop of `calculate_wealth_evolution` threads mutable state
  through the timeline; here the state after day `d` is the fold of the
  per-day step over the prefix of the timeline up to `d` (`replay`), which is
  the same computation written without mutation.
-/

namespace LocalFinance

/-- Lookup in an association list (Python `dict.get`). -/
def lookupA {κ α : Type} [DecidableEq κ] : List (κ × α) → κ → Option α
  | [], _ => none
  | p :: m, k => if p.1 = k then some p.2 else lookupA m k

/-- Update/insert in an association list (Python `dict[k] = v`):
overwrites the first occurrence of the key, appends at the end if absent. -/
def setA {κ α : Type} [DecidableEq κ] : List (κ × α) → κ → α → List (κ × α)
  | [], k, v => [(k, v)]
  | p :: m, k, v => if p.1 = k then (k, v) :: m else p :: setA m k v

/-- Sum of the values of an association list (Python `sum(d.values())`). -/
def sumVals {κ : Type} (m : List (κ × ℚ)) : ℚ := (m.map (fun p => p.2)).sum

-- --- DATA MODEL (rows of the sqlite tables read by engine.py) ---

/-- A row of the `accounts` table (`name` is the primary key). -/
structure Account where
  name : String
  initial_balance : ℚ
deriving DecidableEq, Repr

/-- A row of the `transactions` table (columns read by the engine). -/
structure Transaction where
  date : ℤ
  account : String
  amount : ℚ
  type : String
  is_excluded : Bool
deriving DecidableEq, Repr

/-- A row of the `transfers` table. -/
structure Transfer where
  date : ℤ
  source_account : String
  target_account : String
  amount : ℚ
deriving DecidableEq, Repr

/-- A row of the `investments` table (columns read by the engine and the
snapshot inspector; `name` is the display name). -/
structure Investment where
  date : ℤ
  account : String
  ticker : String
  action : String
  quantity : ℚ
  unit_price : ℚ
  fees : ℚ
  name : String
deriving DecidableEq, Repr

/-- A row of the `market_prices` cache table. -/
structure PricePoint where
  date : ℤ
  ticker : String
  price : ℚ
deriving DecidableEq, Repr

/-- The full database contents visible to the engine. -/
structure Ledger where
  accounts : List Account
  transactions : List Transaction
  transfers : List Transfer
  investments : List Investment
  prices : List PricePoint
deriving Repr

/-- The transactions the engine actually loads:
`SELECT ... FROM transactions WHERE is_excluded = 0`. -/
def loadedTransactions (L : Ledger) : List Transaction :=
  L.transactions.filter (fun t => !t.is_excluded)

-- --- ENGINE STATE (engine.py lines 140-156) ---

/-- The engine's mutable replay state: `current_cash`, `portfolio`
(per account, ticker → quantity), `last_tx_prices`. -/
structure EngineState where
  cash : List (String × ℚ)
  portfolio : List (String × List (String × ℚ))
  lastTxPrices : List (String × ℚ)
deriving Repr

/-- `current_cash = {row.name: row.initial_balance for row in accounts}`. -/
def initCash (L : Ledger) : List (String × ℚ) :=
  L.accounts.foldl (fun m a => setA m a.name a.initial_balance) []

/-- Initial engine state (engine.py lines 142-149):
cash seeded from initial balances, `portfolio = {acc: {} for acc in cash}`,
no fallback prices yet. -/
def initState (L : Ledger) : EngineState :=
  { cash := initCash L
    portfolio := L.accounts.foldl (fun m a => setA m a.name []) []
    lastTxPrices := [] }

/-- `if acc not in current_cash: current_cash[acc] = 0.0; portfolio[acc] = {}`
(engine.py lines 166-168 and 196-198). -/
def ensureAccount (s : EngineState) (a : String) : EngineState :=
  match lookupA s.cash a with
  | some _ => s
  | none => { s with cash := setA s.cash a 0, portfolio := setA s.portfolio a [] }

/-- Step A of the event loop (engine.py lines 163-173): a cash transaction.
`INCOME` adds the amount; any other type string falls into the `else`
branch and subtracts it. -/
def applyTransaction (s : EngineState) (t : Transaction) : EngineState :=
  let s1 := ensureAccount s t.account
  let v := (lookupA s1.cash t.account).getD 0
  { s1 with
      cash := setA s1.cash t.account
        (if t.type = "INCOME" then v + t.amount else v - t.amount) }

/-- Step B of the event loop (engine.py lines 176-180): a transfer.
Each leg is applied only `if` the account is already in `current_cash`;
an unknown source or target is silently skipped (no auto-creation here). -/
def applyTransfer (s : EngineState) (tr : Transfer) : EngineState :=
  let s1 :=
    match lookupA s.cash tr.source_account with
    | none => s
    | some v => { s with cash := setA s.cash tr.source_account (v - tr.amount) }
  match lookupA s1.cash tr.target_account with
  | none => s1
  | some v => { s1 with cash := setA s1.cash tr.target_account (v + tr.amount) }

/-- Step C of the event loop (engine.py lines 183-208): an investment order.
Records the fallback price, auto-creates the account, ensures the ticker
entry exists, then applies cash and quantity effects for BUY/SELL
(an unrecognized action changes neither cash nor quantity). -/
def applyInvestment (s : EngineState) (iv : Investment) : EngineState :=
  let s1 := { s with lastTxPrices := setA s.lastTxPrices iv.ticker iv.unit_price }
  let s2 := ensureAccount s1 iv.account
  let hold0 := (lookupA s2.portfolio iv.account).getD []
  let q := (lookupA hold0 iv.ticker).getD 0
  let hold := setA hold0 iv.ticker q
  let cost := iv.quantity * iv.unit_price
  let c := (lookupA s2.cash iv.account).getD 0
  if iv.action = "BUY" then
    { s2 with
        cash := setA s2.cash iv.account (c - (cost + iv.fees))
        portfolio := setA s2.portfolio iv.account (setA hold iv.ticker (q + iv.quantity)) }
  else if iv.action = "SELL" then
    { s2 with
        cash := setA s2.cash iv.account (c + (cost - iv.fees))
        portfolio := setA s2.portfolio iv.account (setA hold iv.ticker (q - iv.quantity)) }
  else
    { s2 with portfolio := setA s2.portfolio iv.account hold }

/-- One day of the event loop (engine.py lines 159-208): that day's
transactions, then transfers, then investments, in stored row order. -/
def processDay (L : Ledger) (d : ℤ) (s : EngineState) : EngineState :=
  let s1 := ((loadedTransactions L).filter (fun t => t.date = d)).foldl applyTransaction s
  let s2 := (L.transfers.filter (fun t => t.date = d)).foldl applyTransfer s1
  (L.investments.filter (fun t => t.date = d)).foldl applyInvestment s2

/-- The engine state after replaying a list of days in order. -/
def replay (L : Ledger) (days : List ℤ) : EngineState :=
  days.foldl (fun s d => processDay L d s) (initState L)

-- --- TIMELINE (engine.py lines 115-129) ---

/-- `n` consecutive days starting at `a`. -/
def rangeFrom (a : ℤ) : ℕ → List ℤ
  | 0 => []
  | n + 1 => a :: rangeFrom (a + 1) n

/-- `pd.date_range(start=a, end=b, freq=D)`: all days from `a` through `b`
inclusive, empty when `a > b`. -/
def dateRange (a b : ℤ) : List ℤ := rangeFrom a (b + 1 - a).toNat

/-- Minimum of a list of dates (`Series.min()`), `none` on the empty list. -/
def listMin : List ℤ → Option ℤ
  | [] => none
  | x :: xs =>
    some (match listMin xs with
          | none => x
          | some m => min x m)

/-- Maximum of a list of dates, `none` on the empty list. -/
def listMax : List ℤ → Option ℤ
  | [] => none
  | x :: xs =>
    some (match listMax xs with
          | none => x
          | some m => max x m)

/-- All event dates: loaded transactions, transfers, investments
(engine.py lines 116-120). -/
def eventDates (L : Ledger) : List ℤ :=
  (loadedTransactions L).map (fun t => t.date)
    ++ L.transfers.map (fun t => t.date)
    ++ L.investments.map (fun t => t.date)

/-- `start_date = all_dates.min() if not all_dates.empty else today`
(engine.py line 125). -/
def startDate (L : Ledger) (today : ℤ) : ℤ :=
  (listMin (eventDates L)).getD today

/-- The master daily timeline (engine.py line 129). -/
def timeline (L : Ledger) (today : ℤ) : List ℤ :=
  dateRange (startDate L today) today

-- --- PRICE MATRIX (engine.py lines 131-138, 219-228) ---

/-- All cached prices for ticker `t` on exactly day `d`
(the cell aggregated by `pivot_table(..., aggfunc=mean)`). -/
def pricesAt (L : Ledger) (t : String) (d : ℤ) : List ℚ :=
  ((L.prices.filter (fun p => p.ticker = t && p.date = d)).map (fun p => p.price))

/-- The latest day in `[lo, d]` holding a cached price for `t`, if any.
`lo` is the timeline start: `reindex(timeline)` drops cached rows dated
before the timeline, and `ffill` then looks back only within it. -/
def lastPriceDateLe (L : Ledger) (t : String) (lo d : ℤ) : Option ℤ :=
  listMax ((L.prices.filter
    (fun p => p.ticker = t && lo ≤ p.date && p.date ≤ d)).map (fun p => p.date))

/-- The forward-filled price-matrix cell for ticker `t` on day `d`
(`pivot_table(aggfunc=mean).reindex(timeline).ffill()`): the mean cached
price at the latest in-range day at or before `d`, `none` when no cached
price for `t` lies in `[lo, d]`. -/
def ffillCell (L : Ledger) (lo : ℤ) (t : String) (d : ℤ) : Option ℚ :=
  match lastPriceDateLe L t lo d with
  | none => none
  | some d0 =>
    let ps := pricesAt L t d0
    some (ps.sum / (ps.length : ℚ))

/-- `mkt_price` after the market-cache lookup (engine.py lines 220-224):
the forward-filled cell, or `0.0` when the column is missing or the cell
is null. -/
def marketPrice (L : Ledger) (lo : ℤ) (t : String) (d : ℤ) : ℚ :=
  (ffillCell L lo t d).getD 0

/-- The price actually used for valuation (engine.py lines 220-228):
market price first; if it is zero, fall back to the last transacted
unit price, defaulting to zero. -/
def usedPrice (L : Ledger) (lo : ℤ) (ltp : List (String × ℚ)) (t : String) (d : ℤ) : ℚ :=
  let m := marketPrice L lo t d
  if m = 0 then (lookupA ltp t).getD 0 else m

-- --- DAILY VALUATION AND OUTPUT (engine.py lines 210-264) ---

/-- Value of one account's holdings on day `d` (engine.py lines 216-232):
positions with quantity above `0.000001` valued at `usedPrice`. -/
def holdingsValue (L : Ledger) (lo : ℤ) (ltp : List (String × ℚ)) (d : ℤ)
    (hold : List (String × ℚ)) : ℚ :=
  ((hold.filter (fun p => (1 : ℚ)/1000000 < p.2)).map
    (fun p => p.2 * usedPrice L lo ltp p.1 d)).sum

/-- `account_invest_val` for one account. -/
def accInvestVal (L : Ledger) (lo : ℤ) (s : EngineState) (d : ℤ) (a : String) : ℚ :=
  holdingsValue L lo s.lastTxPrices d ((lookupA s.portfolio a).getD [])

/-- One output row before the `Total Wealth` column is added
(engine.py lines 236-246): the date, `Total Invest`, and one entry per
key of `current_cash` holding cash + investment value. -/
structure DayRecord where
  date : ℤ
  totalInvest : ℚ
  accounts : List (String × ℚ)
deriving DecidableEq, Repr

/-- Build the day's record from the post-events state (engine.py 210-246). -/
def mkRecord (L : Ledger) (lo : ℤ) (s : EngineState) (d : ℤ) : DayRecord :=
  { date := d
    totalInvest := (s.portfolio.map (fun p => holdingsValue L lo s.lastTxPrices d p.2)).sum
    accounts := s.cash.map (fun p => (p.1, p.2 + accInvestVal L lo s d p.1)) }

/-- The row the loop appends for timeline day `d`: the state it carries at
the end of day `d` is the fold of `processDay` over the days up to `d`. -/
def rowAt (L : Ledger) (today d : ℤ) : DayRecord :=
  mkRecord L (startDate L today) (replay L (dateRange (startDate L today) d)) d

/-- The `history` list built by the event loop: one record per timeline day. -/
def history (L : Ledger) (today : ℤ) : List DayRecord :=
  (timeline L today).map (rowAt L today)

/-- `calculate_wealth_evolution` as a list of rows: returns the empty table
when there are no events and no accounts (engine.py lines 122-123);
an empty `history` (future-only start) also yields the empty table. -/
def calculate_wealth_evolution (L : Ledger) (today : ℤ) : List DayRecord :=
  if (eventDates L).isEmpty && L.accounts.isEmpty then [] else history L today

/-- The `Total Wealth` cell of a row (engine.py lines 257-258): the pandas
row-sum over all account columns skips the null cells of accounts absent
from this record, so it is the sum of the record's own account values. -/
def totalWealth (r : DayRecord) : ℚ := sumVals r.accounts

/-- Whether the output table has a column named `a` (a column exists when
some record carries that key). -/
def hasColumn (hist : List DayRecord) (a : String) : Bool :=
  hist.any (fun r => (lookupA r.accounts a).isSome)

/-- The cell of column `a` at row index `i`: `none` models the null (`NaN`)
pandas writes where a record lacks the key. -/
def columnValue (hist : List DayRecord) (a : String) (i : ℕ) : Option ℚ :=
  (hist[i]?).bind (fun r => lookupA r.accounts a)

-- --- OBSERVERS OF THE ENGINE STATE ---

/-- Cash balance of account `a` (0 when the account is not tracked). -/
def cashOf (s : EngineState) (a : String) : ℚ := (lookupA s.cash a).getD 0

/-- Held quantity of ticker `t` in account `a` (0 when not tracked). -/
def qtyOf (s : EngineState) (a t : String) : ℚ :=
  (lookupA ((lookupA s.portfolio a).getD []) t).getD 0

/-- Total cash across all tracked accounts. -/
def cashTotal (s : EngineState) : ℚ := sumVals s.cash

-- --- SIGNED EVENT CONTRIBUTIONS (used to state the claims) ---

/-- Signed amount of a transaction: `+` for INCOME, `-` otherwise. -/
def txSigned (t : Transaction) : ℚ :=
  if t.type = "INCOME" then t.amount else -t.amount

/-- Contribution of a transaction to account `a`. -/
def txDelta (a : String) (t : Transaction) : ℚ :=
  if t.account = a then txSigned t else 0

/-- Contribution of a transfer to account `a`: minus on source, plus on
target. -/
def trDelta (a : String) (tr : Transfer) : ℚ :=
  (if tr.source_account = a then -tr.amount else 0)
    + (if tr.target_account = a then tr.amount else 0)

/-- Cash contribution of an investment order to account `a`. -/
def invCashDelta (a : String) (iv : Investment) : ℚ :=
  if iv.account = a then
    (if iv.action = "BUY" then -(iv.quantity * iv.unit_price + iv.fees)
     else if iv.action = "SELL" then iv.quantity * iv.unit_price - iv.fees
     else 0)
  else 0

/-- Quantity contribution of an investment order to position `(a, t)`. -/
def invQtyDelta (a t : String) (iv : Investment) : ℚ :=
  if iv.account = a ∧ iv.ticker = t then
    (if iv.action = "BUY" then iv.quantity
     else if iv.action = "SELL" then -iv.quantity
     else 0)
  else 0

-- --- MARKET DATA SYNC (engine.py lines 10-73) ---

/-- `date(2020, 1, 1)`, the hard-coded default fetch start of
`update_market_data`, encoded as day 0 of the integer calendar. -/
def defaultFetchStart : ℤ := 0

/-- The date range `update_market_data` downloads for one ticker, given the
cached `(MIN(date), MAX(date))` (or `none` when the ticker has no rows) and
today (engine.py lines 28-42): with no cache, `[2020-01-01, today]`; with a
cache whose max is before today, `[max + 1, today]`; otherwise nothing.
The cached minimum date is never consulted for a backfill. -/
def fetchRange (existing : Option (ℤ × ℤ)) (today : ℤ) : Option (ℤ × ℤ) :=
  match existing with
  | none =>
    if defaultFetchStart > today then none else some (defaultFetchStart, today)
  | some mm =>
    if mm.2 ≥ today then none
    else if mm.2 + 1 > today then none
    else some (mm.2 + 1, today)

-- --- SNAPSHOT INSPECTOR (engine.py lines 267-331) ---

/-- Snapshot cash update for a transaction (engine.py lines 286-291):
applied only when the account already has a balance entry. -/
def snapApplyTx (m : List (String × ℚ)) (t : Transaction) : List (String × ℚ) :=
  match lookupA m t.account with
  | none => m
  | some v =>
    setA m t.account (if t.type = "INCOME" then v + t.amount else v - t.amount)

/-- Snapshot cash update for a transfer (engine.py lines 296-299):
each leg applied only when its account has a balance entry. -/
def snapApplyTransfer (m : List (String × ℚ)) (tr : Transfer) : List (String × ℚ) :=
  let m1 :=
    match lookupA m tr.source_account with
    | none => m
    | some v => setA m tr.source_account (v - tr.amount)
  match lookupA m1 tr.target_account with
  | none => m1
  | some v => setA m1 tr.target_account (v + tr.amount)

/-- Snapshot update for an investment row (engine.py lines 308-330):
cash impact only when the account has a balance entry; quantity impact
keyed by `(account, ticker)` unconditionally. -/
def snapApplyInv (st : List (String × ℚ) × List ((String × String) × ℚ))
    (iv : Investment) : List (String × ℚ) × List ((String × String) × ℚ) :=
  let cost := iv.quantity * iv.unit_price
  let m :=
    match lookupA st.1 iv.account with
    | none => st.1
    | some v =>
      if iv.action = "BUY" then setA st.1 iv.account (v - (cost + iv.fees))
      else if iv.action = "SELL" then setA st.1 iv.account (v + (cost - iv.fees))
      else st.1
  let key := (iv.account, iv.ticker)
  let q0 := (lookupA st.2 key).getD 0
  let ensured := setA st.2 key q0
  let q2 :=
    if iv.action = "BUY" then setA ensured key (q0 + iv.quantity)
    else if iv.action = "SELL" then setA ensured key (q0 - iv.quantity)
    else ensured
  (m, q2)

/-- The snapshot inspector's cash balances and held quantities at `D`
(engine.py lines 279-330): initial balances, then all non-excluded
transactions dated `≤ D`, then all transfers `≤ D`, then all investment
rows `≤ D`, each list in stored order. -/
def snapshotState (L : Ledger) (D : ℤ) :
    List (String × ℚ) × List ((String × String) × ℚ) :=
  let m0 := initCash L
  let m1 := ((loadedTransactions L).filter (fun t => t.date ≤ D)).foldl snapApplyTx m0
  let m2 := (L.transfers.filter (fun t => t.date ≤ D)).foldl snapApplyTransfer m1
  (L.investments.filter (fun t => t.date ≤ D)).foldl snapApplyInv (m2, [])

/-- Snapshot cash balance of account `a` (0 when not tracked). -/
def snapCashOf (L : Ledger) (D : ℤ) (a : String) : ℚ :=
  (lookupA (snapshotState L D).1 a).getD 0

/-- Snapshot held quantity for `(a, t)` (0 when not tracked). -/
def snapQtyOf (L : Ledger) (D : ℤ) (a t : String) : ℚ :=
  (lookupA (snapshotState L D).2 (a, t)).getD 0

-- --- STATE PREDICATES AND CONCRETE LEDGERS ---

/-- The engine invariant that every tracked portfolio key is a tracked cash
key (true of every reachable state; the Python code keeps `portfolio` and
`current_cash` keyed identically). -/
def goodState (s : EngineState) : Prop :=
  ∀ p ∈ s.portfolio, (lookupA s.cash p.1).isSome = true

/-- Account `a` is declared in the `accounts` table. -/
def declared (L : Ledger) (a : String) : Prop :=
  (lookupA (initCash L) a).isSome = true

/-- Every tracked portfolio entry is an empty holdings map (the engine's
state whenever no investment order has been replayed). -/
def portEmpty (s : EngineState) : Prop :=
  ∀ p ∈ s.portfolio, p.2 = ([] : List (String × ℚ))

/-- Every declared account has a cash entry in the state (true initially and
preserved forever: the engine never removes accounts). -/
def tracksDeclared (L : Ledger) (s : EngineState) : Prop :=
  ∀ a, declared L a → (lookupA s.cash a).isSome = true

/-- Every account referenced by a loaded transaction, a transfer or an
investment order. -/
def refAccounts (L : Ledger) : List String :=
  (loadedTransactions L).map (fun t => t.account)
    ++ L.transfers.map (fun t => t.source_account)
    ++ L.transfers.map (fun t => t.target_account)
    ++ L.investments.map (fun t => t.account)

/-- Scenario B of the spec: account Broker at 0, BUY 10 of X at 100 with
fees 5 on day 1, no market prices. -/
def ledgerB : Ledger :=
  { accounts := [⟨"Broker", 0⟩]
    transactions := []
    transfers := []
    investments := [⟨1, "Broker", "X", "BUY", 10, 100, 5, "X"⟩]
    prices := [] }

/-- A ledger whose only transfer targets an account absent from the
accounts table. -/
def ledgerT : Ledger :=
  { accounts := [⟨"A", 0⟩]
    transactions := []
    transfers := [⟨0, "A", "B", 100⟩]
    investments := []
    prices := [] }

/-- The spec's fill scenario: cached prices for T only on day 1 (value 10)
and day 10 (value 20); one transaction on day −6 opens the timeline there
(day 1 encodes 2024-01-01, day −6 encodes 2023-12-25, day 5 2024-01-05). -/
def ledgerF : Ledger :=
  { accounts := [⟨"A", 0⟩]
    transactions := [⟨-6, "A", 1, "INCOME", false⟩]
    transfers := []
    investments := []
    prices := [⟨1, "T", 10⟩, ⟨10, "T", 20⟩] }

/-- A ledger where account B first appears in a day-1 transaction while the
timeline starts at day 0. -/
def ledgerC : Ledger :=
  { accounts := [⟨"A", 0⟩]
    transactions := [⟨0, "A", 1, "INCOME", false⟩, ⟨1, "B", 100, "INCOME", false⟩]
    transfers := []
    investments := []
    prices := [] }

/-- A ledger whose single transaction references an account absent from the
accounts table. -/
def ledgerU : Ledger :=
  { accounts := []
    transactions := [⟨0, "A", 100, "INCOME", false⟩]
    transfers := []
    investments := []
    prices := [] }

/-- Scenario A of the spec: one account at 1000, INCOME 500 on day 2,
EXPENSE 200 on day 3. -/
def ledgerA : Ledger :=
  { accounts := [⟨"Main", 1000⟩]
    transactions := [⟨2, "Main", 500, "INCOME", false⟩, ⟨3, "Main", 200, "EXPENSE", false⟩]
    transfers := []
    investments := []
    prices := [] }

-- --- ASSOCIATION LIST LEMMAS ---

theorem lookupA_setA {κ α : Type} [DecidableEq κ] (m : List (κ × α)) (k : κ) (v : α)
    (j : κ) : lookupA (setA m k v) j = if k = j then some v else lookupA m j := by
  induction m with
  | nil =>
    simp only [setA, lookupA]
  | cons p m ih =>
    simp only [setA]
    by_cases hpk : p.1 = k
    · rw [if_pos hpk]
      by_cases hkj : k = j
      · simp [lookupA, hkj]
      · have hpj : ¬p.1 = j := by rw [hpk]; exact hkj
        simp [lookupA, hkj, hpj]
    · rw [if_neg hpk]
      by_cases hpj : p.1 = j
      · have hkj : ¬k = j := fun h => hpk (by rw [hpj, h])
        simp [lookupA, hpj, hkj]
      · simp [lookupA, hpj, ih]

theorem lookupA_mem {κ α : Type} [DecidableEq κ] (m : List (κ × α)) (k : κ) (v : α)
    (h : lookupA m k = some v) : (k, v) ∈ m := by
  induction m with
  | nil => simp [lookupA] at h
  | cons p m ih =>
    obtain ⟨a, b⟩ := p
    simp only [lookupA] at h
    by_cases hpk : a = k
    · rw [if_pos hpk] at h
      have hv : b = v := Option.some.inj h
      rw [← hpk, ← hv]
      exact List.mem_cons_self _ _
    · rw [if_neg hpk] at h
      exact List.mem_cons_of_mem _ (ih h)

theorem sumVals_setA_some {κ : Type} [DecidableEq κ] (m : List (κ × ℚ)) (k : κ)
    (v w : ℚ) (h : lookupA m k = some w) :
    sumVals (setA m k v) = sumVals m - w + v := by
  induction m with
  | nil => simp [lookupA] at h
  | cons p m ih =>
    simp only [lookupA] at h
    by_cases hpk : p.1 = k
    · rw [if_pos hpk] at h
      cases h
      simp only [setA, if_pos hpk, sumVals, List.map_cons, List.sum_cons]
      ring
    · rw [if_neg hpk] at h
      simp only [setA, if_neg hpk, sumVals, List.map_cons, List.sum_cons]
      have := ih h
      simp only [sumVals] at this
      rw [this]
      ring

theorem sumVals_setA_none {κ : Type} [DecidableEq κ] (m : List (κ × ℚ)) (k : κ)
    (v : ℚ) (h : lookupA m k = none) :
    sumVals (setA m k v) = sumVals m + v := by
  induction m with
  | nil => simp [setA, sumVals]
  | cons p m ih =>
    simp only [lookupA] at h
    by_cases hpk : p.1 = k
    · rw [if_pos hpk] at h
      cases h
    · rw [if_neg hpk] at h
      simp only [setA, if_neg hpk, sumVals, List.map_cons, List.sum_cons]
      have := ih h
      simp only [sumVals] at this
      rw [this]
      ring

/-- Mapping over the values of an association list preserves which keys are
present. -/
theorem lookupA_map_isSome {κ α β : Type} [DecidableEq κ] (m : List (κ × α))
    (g : κ × α → β) (j : κ) :
    (lookupA (m.map (fun p => (p.1, g p))) j).isSome = (lookupA m j).isSome := by
  induction m with
  | nil => rfl
  | cons p m ih =>
    simp only [List.map_cons, lookupA]
    by_cases hpj : p.1 = j
    · simp [hpj]
    · simp only [if_neg hpj, ih]

/-- Two options with the same `isSome` flag and the same default-0 value are
equal. -/
theorem option_eq_of_isSome_getD (o₁ o₂ : Option ℚ)
    (h₁ : o₁.isSome = o₂.isSome) (h₂ : o₁.getD 0 = o₂.getD 0) : o₁ = o₂ := by
  cases o₁ with
  | none =>
    cases o₂ with
    | none => rfl
    | some b => simp at h₁
  | some a =>
    cases o₂ with
    | none => simp at h₁
    | some b =>
      simp only [Option.getD_some] at h₂
      rw [h₂]

-- --- GENERIC FOLD LEMMAS ---

/-- A state predicate preserved by every step is preserved by the fold. -/
theorem foldl_pres {S E : Type} (st : S → E → S) (P : S → Prop) (Q : E → Prop)
    (hpres : ∀ s e, P s → Q e → P (st s e)) :
    ∀ (l : List E) (s : S), P s → (∀ e ∈ l, Q e) → P (l.foldl st s) := by
  intro l
  induction l with
  | nil => intro s hs _; exact hs
  | cons e l ih =>
    intro s hs hq
    exact ih (st s e) (hpres s e hs (hq e (List.mem_cons_self e l)))
      (fun x hx => hq x (List.mem_cons_of_mem e hx))

/-- A numeric measure whose per-step change is `δ e` accumulates the sum of
`δ` over the fold. -/
theorem foldl_measure {S E : Type} (st : S → E → S) (f : S → ℚ) (δ : E → ℚ)
    (P : S → Prop) (Q : E → Prop)
    (hstep : ∀ s e, P s → Q e → f (st s e) = f s + δ e)
    (hpres : ∀ s e, P s → Q e → P (st s e)) :
    ∀ (l : List E) (s : S), P s → (∀ e ∈ l, Q e) →
      f (l.foldl st s) = f s + (l.map δ).sum := by
  intro l
  induction l with
  | nil => intro s _ _; simp
  | cons e l ih =>
    intro s hs hq
    have he : Q e := hq e (List.mem_cons_self e l)
    have hrest : ∀ x ∈ l, Q x := fun x hx => hq x (List.mem_cons_of_mem e hx)
    simp only [List.foldl_cons, List.map_cons, List.sum_cons]
    rw [ih (st s e) (hpres s e hs he) hrest, hstep s e hs he]
    ring

-- --- CALENDAR LEMMAS ---

theorem mem_rangeFrom (n : ℕ) : ∀ (a x : ℤ), x ∈ rangeFrom a n ↔ a ≤ x ∧ x < a + n := by
  induction n with
  | zero =>
    intro a x
    simp only [rangeFrom, List.not_mem_nil, false_iff]
    omega
  | succ n ih =>
    intro a x
    simp only [rangeFrom, List.mem_cons, ih (a + 1) x]
    omega

theorem mem_dateRange (a b x : ℤ) : x ∈ dateRange a b ↔ a ≤ x ∧ x ≤ b := by
  unfold dateRange
  rw [mem_rangeFrom]
  omega

theorem chain_rangeFrom (n : ℕ) :
    ∀ a : ℤ, List.Chain' (fun x y => y = x + 1) (rangeFrom a n) := by
  induction n with
  | zero => intro a; simp [rangeFrom]
  | succ n ih =>
    intro a
    cases n with
    | zero => simp [rangeFrom]
    | succ k =>
      refine List.Chain'.cons rfl (ih (a + 1))

theorem chain_dateRange (a b : ℤ) :
    List.Chain' (fun x y => y = x + 1) (dateRange a b) :=
  chain_rangeFrom _ a

theorem nodup_rangeFrom (n : ℕ) : ∀ a : ℤ, (rangeFrom a n).Nodup := by
  induction n with
  | zero => intro a; simp [rangeFrom]
  | succ n ih =>
    intro a
    refine List.Nodup.cons ?_ (ih (a + 1))
    intro hmem
    rw [mem_rangeFrom] at hmem
    omega

theorem nodup_dateRange (a b : ℤ) : (dateRange a b).Nodup :=
  nodup_rangeFrom _ a

theorem listMin_le (l : List ℤ) (m : ℤ) (h : listMin l = some m) :
    ∀ x ∈ l, m ≤ x := by
  induction l generalizing m with
  | nil => simp [listMin] at h
  | cons y ys ih =>
    intro x hx
    simp only [listMin] at h
    cases hys : listMin ys with
    | none =>
      cases ys with
      | nil =>
        rw [hys] at h
        have : m = y := by cases h; rfl
        rcases List.mem_cons.mp hx with hxy | hxs
        · omega
        · simp at hxs
      | cons z zs => simp [listMin] at hys
    | some k =>
      rw [hys] at h
      have hm : m = min y k := by cases h; rfl
      rcases List.mem_cons.mp hx with hxy | hxs
      · omega
      · have := ih k hys x hxs
        omega

theorem listMin_isSome (l : List ℤ) (h : l ≠ []) : (listMin l).isSome = true := by
  cases l with
  | nil => exact absurd rfl h
  | cons x xs => simp [listMin]

theorem listMin_mem (l : List ℤ) (m : ℤ) (h : listMin l = some m) : m ∈ l := by
  induction l generalizing m with
  | nil => simp [listMin] at h
  | cons y ys ih =>
    simp only [listMin] at h
    cases hys : listMin ys with
    | none =>
      rw [hys] at h
      have : m = y := by cases h; rfl
      rw [this]; exact List.mem_cons_self _ _
    | some k =>
      rw [hys] at h
      have hm : m = min y k := by cases h; rfl
      rcases le_total y k with hyk | hky
      · have : m = y := by omega
        rw [this]; exact List.mem_cons_self _ _
      · have : m = k := by omega
        rw [this]; exact List.mem_cons_of_mem _ (ih k hys)

/-- Every event date is at or after the engine's start date. -/
theorem startDate_le_eventDates (L : Ledger) (today : ℤ) :
    ∀ d ∈ eventDates L, startDate L today ≤ d := by
  intro d hd
  unfold startDate
  cases h : listMin (eventDates L) with
  | none =>
    cases hev : eventDates L with
    | nil => rw [hev] at hd; simp at hd
    | cons x xs => rw [hev] at h; simp [listMin] at h
  | some m =>
    simpa using listMin_le _ m h d hd

-- --- SUM REARRANGEMENT ---

/-- Splitting a filtered sum along two mutually exclusive predicates. -/
theorem sum_filter_or {E : Type} (δ : E → ℚ) (p q : E → Bool)
    (hdisj : ∀ e, ¬(p e = true ∧ q e = true)) (l : List E) :
    ((l.filter (fun e => p e || q e)).map δ).sum
      = ((l.filter p).map δ).sum + ((l.filter q).map δ).sum := by
  induction l with
  | nil => simp
  | cons e l ih =>
    by_cases hp : p e = true
    · have hq : q e = false := by
        cases hqe : q e with
        | false => rfl
        | true => exact absurd ⟨hp, hqe⟩ (hdisj e)
      simp only [List.filter_cons, hp, hq, Bool.true_or, if_true, Bool.false_eq_true,
        if_false, List.map_cons, List.sum_cons, ih]
      ring
    · have hp' : p e = false := by cases hpe : p e with
        | false => rfl
        | true => exact absurd hpe hp
      by_cases hq : q e = true
      · simp only [List.filter_cons, hp', hq, Bool.false_or, if_true, Bool.false_eq_true,
          if_false, List.map_cons, List.sum_cons, ih]
        ring
      · have hq' : q e = false := by cases hqe : q e with
          | false => rfl
          | true => exact absurd hqe hq
        simp only [List.filter_cons, hp', hq', Bool.false_or, Bool.false_eq_true,
          if_false, ih]

/-- Grouping a filtered sum by date: summing each day's events over a
duplicate-free list of days equals one sum over events dated in that list. -/
theorem sum_grouped_by_day {E : Type} (dateOf : E → ℤ) (δ : E → ℚ) :
    ∀ (days : List ℤ), days.Nodup → ∀ (l : List E),
      (days.map (fun d => ((l.filter (fun e => dateOf e = d)).map δ).sum)).sum
        = ((l.filter (fun e => decide (dateOf e ∈ days))).map δ).sum := by
  intro days
  induction days with
  | nil =>
    intro _ l
    simp
  | cons d ds ih =>
    intro hnd l
    have hd : d ∉ ds := (List.nodup_cons.mp hnd).1
    have hds : ds.Nodup := (List.nodup_cons.mp hnd).2
    simp only [List.map_cons, List.sum_cons, ih hds l]
    have hsplit := sum_filter_or δ (fun e => decide (dateOf e = d))
      (fun e => decide (dateOf e ∈ ds))
      (by
        intro e he
        simp only [decide_eq_true_eq] at he
        exact hd (he.1 ▸ he.2)) l
    have hcong : (l.filter (fun e => decide (dateOf e ∈ d :: ds)))
        = (l.filter (fun e => decide (dateOf e = d) || decide (dateOf e ∈ ds))) := by
      apply List.filter_congr
      intro e _
      simp [List.mem_cons]
    rw [hcong, hsplit]

-- --- ENGINE STEP LEMMAS ---

theorem mem_setA {κ α : Type} [DecidableEq κ] (m : List (κ × α)) (k : κ) (v : α)
    (p : κ × α) (h : p ∈ setA m k v) : p ∈ m ∨ p = (k, v) := by
  induction m with
  | nil =>
    simp only [setA, List.mem_singleton] at h
    exact Or.inr h
  | cons q m ih =>
    simp only [setA] at h
    by_cases hqk : q.1 = k
    · rw [if_pos hqk] at h
      rcases List.mem_cons.mp h with h1 | h1
      · exact Or.inr h1
      · exact Or.inl (List.mem_cons_of_mem _ h1)
    · rw [if_neg hqk] at h
      rcases List.mem_cons.mp h with h1 | h1
      · exact Or.inl (h1 ▸ List.mem_cons_self _ _)
      · rcases ih h1 with h2 | h2
        · exact Or.inl (List.mem_cons_of_mem _ h2)
        · exact Or.inr h2

theorem goodState_none {s : EngineState} (h : goodState s) (a : String)
    (hc : lookupA s.cash a = none) : lookupA s.portfolio a = none := by
  cases hp : lookupA s.portfolio a with
  | none => rfl
  | some h0 =>
    have := h (a, h0) (lookupA_mem _ _ _ hp)
    rw [hc] at this
    simp at this

theorem ensureAccount_of_isSome {s : EngineState} {a : String}
    (h : (lookupA s.cash a).isSome = true) : ensureAccount s a = s := by
  unfold ensureAccount
  cases hl : lookupA s.cash a with
  | none => rw [hl] at h; simp at h
  | some v => rfl

theorem ensureAccount_cashOf (s : EngineState) (a b : String) :
    cashOf (ensureAccount s a) b = cashOf s b := by
  unfold ensureAccount cashOf
  cases hl : lookupA s.cash a with
  | none =>
    simp only [lookupA_setA]
    by_cases hab : a = b
    · rw [if_pos hab, ← hab, hl]
      rfl
    · rw [if_neg hab]
  | some v => rfl

theorem ensureAccount_cashTotal (s : EngineState) (a : String) :
    cashTotal (ensureAccount s a) = cashTotal s := by
  unfold ensureAccount cashTotal
  cases hl : lookupA s.cash a with
  | none =>
    simp only
    rw [sumVals_setA_none _ _ _ hl]
    ring
  | some v => rfl

theorem ensureAccount_isSome_self (s : EngineState) (a : String) :
    (lookupA (ensureAccount s a).cash a).isSome = true := by
  unfold ensureAccount
  cases hl : lookupA s.cash a with
  | none => simp [lookupA_setA]
  | some v => simp [hl]

theorem ensureAccount_isSome_mono {s : EngineState} {b : String} (a : String)
    (h : (lookupA s.cash b).isSome = true) :
    (lookupA (ensureAccount s a).cash b).isSome = true := by
  unfold ensureAccount
  cases hl : lookupA s.cash a with
  | none =>
    simp only [lookupA_setA]
    by_cases hab : a = b
    · simp [hab]
    · simp [hab, h]
  | some v => exact h

theorem ensureAccount_portfolio_getD {s : EngineState} (hg : goodState s)
    (a b : String) :
    (lookupA (ensureAccount s a).portfolio b).getD []
      = (lookupA s.portfolio b).getD [] := by
  unfold ensureAccount
  cases hl : lookupA s.cash a with
  | none =>
    simp only [lookupA_setA]
    by_cases hab : a = b
    · rw [if_pos hab, ← hab, goodState_none hg a hl]
      rfl
    · rw [if_neg hab]
  | some v => rfl

theorem goodState_ensureAccount {s : EngineState} (hg : goodState s) (a : String) :
    goodState (ensureAccount s a) := by
  unfold ensureAccount
  cases hl : lookupA s.cash a with
  | none =>
    intro p hp
    simp only at hp
    rcases mem_setA _ _ _ _ hp with h1 | h1
    · have := hg p h1
      simp only [lookupA_setA]
      by_cases hab : a = p.1
      · simp [hab]
      · simp [hab, this]
    · simp [h1, lookupA_setA]
  | some v => exact hg

-- applyTransaction

theorem cashOf_applyTransaction (s : EngineState) (t : Transaction) (a : String) :
    cashOf (applyTransaction s t) a = cashOf s a + txDelta a t := by
  unfold applyTransaction txDelta txSigned
  simp only [cashOf, lookupA_setA]
  by_cases hta : t.account = a
  · rw [if_pos hta, if_pos hta, ← hta]
    have := ensureAccount_cashOf s t.account t.account
    unfold cashOf at this
    rw [this]
    by_cases hty : t.type = "INCOME"
    · simp [hty]
    · simp [hty]
      ring
  · rw [if_neg hta, if_neg hta]
    have := ensureAccount_cashOf s t.account a
    unfold cashOf at this
    rw [this]
    ring

theorem cashTotal_applyTransaction (s : EngineState) (t : Transaction) :
    cashTotal (applyTransaction s t) = cashTotal s + txSigned t := by
  unfold applyTransaction
  have hsome := ensureAccount_isSome_self s t.account
  obtain ⟨w, hw⟩ := Option.isSome_iff_exists.mp hsome
  have htot := ensureAccount_cashTotal s t.account
  unfold cashTotal at htot ⊢
  simp only [hw, Option.getD_some]
  rw [sumVals_setA_some _ _ _ w hw, htot]
  unfold txSigned
  by_cases hty : t.type = "INCOME"
  · simp [hty]; ring
  · simp [hty]; ring

theorem isSome_applyTransaction_mono {s : EngineState} {b : String}
    (t : Transaction) (h : (lookupA s.cash b).isSome = true) :
    (lookupA (applyTransaction s t).cash b).isSome = true := by
  unfold applyTransaction
  simp only [lookupA_setA]
  by_cases hta : t.account = b
  · simp [hta]
  · simp only [if_neg hta]
    exact ensureAccount_isSome_mono t.account h

theorem isSome_applyTransaction_self (s : EngineState) (t : Transaction) :
    (lookupA (applyTransaction s t).cash t.account).isSome = true := by
  unfold applyTransaction
  simp [lookupA_setA]

theorem isSome_applyTransaction_eq {s : EngineState} (t : Transaction)
    (h : (lookupA s.cash t.account).isSome = true) (b : String) :
    (lookupA (applyTransaction s t).cash b).isSome = (lookupA s.cash b).isSome := by
  unfold applyTransaction
  rw [ensureAccount_of_isSome h]
  simp only [lookupA_setA]
  by_cases hta : t.account = b
  · rw [if_pos hta, ← hta, h]
    rfl
  · rw [if_neg hta]

theorem goodState_applyTransaction {s : EngineState} (hg : goodState s)
    (t : Transaction) : goodState (applyTransaction s t) := by
  unfold applyTransaction
  intro p hp
  simp only at hp ⊢
  have h1 := goodState_ensureAccount hg t.account p hp
  simp only [lookupA_setA]
  by_cases hta : t.account = p.1
  · simp [hta]
  · simp [hta, h1]

theorem qtyOf_applyTransaction {s : EngineState} (hg : goodState s)
    (t : Transaction) (a tk : String) :
    qtyOf (applyTransaction s t) a tk = qtyOf s a tk := by
  unfold applyTransaction qtyOf
  simp only
  rw [ensureAccount_portfolio_getD hg]

-- applyTransfer

theorem applyTransfer_portfolio (s : EngineState) (tr : Transfer) :
    (applyTransfer s tr).portfolio = s.portfolio := by
  unfold applyTransfer
  cases lookupA s.cash tr.source_account with
  | none =>
    simp only
    cases lookupA s.cash tr.target_account with
    | none => rfl
    | some v => rfl
  | some v =>
    simp only
    cases lookupA (setA s.cash tr.source_account (v - tr.amount)) tr.target_account with
    | none => rfl
    | some w => rfl

theorem applyTransfer_lastTxPrices (s : EngineState) (tr : Transfer) :
    (applyTransfer s tr).lastTxPrices = s.lastTxPrices := by
  unfold applyTransfer
  cases lookupA s.cash tr.source_account with
  | none =>
    simp only
    cases lookupA s.cash tr.target_account with
    | none => rfl
    | some v => rfl
  | some v =>
    simp only
    cases lookupA (setA s.cash tr.source_account (v - tr.amount)) tr.target_account with
    | none => rfl
    | some w => rfl

theorem isSome_applyTransfer (s : EngineState) (tr : Transfer) (b : String) :
    (lookupA (applyTransfer s tr).cash b).isSome = (lookupA s.cash b).isSome := by
  unfold applyTransfer
  cases h1 : lookupA s.cash tr.source_account with
  | none =>
    simp only
    cases h2 : lookupA s.cash tr.target_account with
    | none => rfl
    | some v =>
      simp only [lookupA_setA]
      by_cases htb : tr.target_account = b
      · rw [if_pos htb, ← htb, h2]; rfl
      · rw [if_neg htb]
  | some v =>
    simp only
    cases h2 : lookupA (setA s.cash tr.source_account (v - tr.amount)) tr.target_account with
    | none =>
      simp only [lookupA_setA]
      by_cases hsb : tr.source_account = b
      · rw [if_pos hsb, ← hsb, h1]; rfl
      · rw [if_neg hsb]
    | some w =>
      simp only [lookupA_setA]
      rw [lookupA_setA] at h2
      by_cases htb : tr.target_account = b
      · rw [if_pos htb]
        by_cases hst : tr.source_account = tr.target_account
        · rw [← htb, ← hst, h1]; rfl
        · rw [if_neg hst] at h2
          rw [← htb, h2]; rfl
      · rw [if_neg htb]
        by_cases hsb : tr.source_account = b
        · rw [if_pos hsb, ← hsb, h1]; rfl
        · rw [if_neg hsb]

theorem goodState_applyTransfer {s : EngineState} (hg : goodState s)
    (tr : Transfer) : goodState (applyTransfer s tr) := by
  intro p hp
  rw [applyTransfer_portfolio] at hp
  rw [isSome_applyTransfer]
  exact hg p hp

theorem qtyOf_applyTransfer (s : EngineState) (tr : Transfer) (a tk : String) :
    qtyOf (applyTransfer s tr) a tk = qtyOf s a tk := by
  unfold qtyOf
  rw [applyTransfer_portfolio]

theorem cashOf_applyTransfer {s : EngineState} {tr : Transfer}
    (h1 : (lookupA s.cash tr.source_account).isSome = true)
    (h2 : (lookupA s.cash tr.target_account).isSome = true) (a : String) :
    cashOf (applyTransfer s tr) a = cashOf s a + trDelta a tr := by
  obtain ⟨v, hv⟩ := Option.isSome_iff_exists.mp h1
  obtain ⟨w, hw⟩ := Option.isSome_iff_exists.mp h2
  unfold applyTransfer trDelta
  rw [hv]
  simp only
  by_cases hst : tr.source_account = tr.target_account
  · rw [show lookupA (setA s.cash tr.source_account (v - tr.amount)) tr.target_account
        = some (v - tr.amount) by rw [lookupA_setA, if_pos hst]]
    simp only [cashOf, lookupA_setA]
    by_cases hta : tr.target_account = a
    · have hsa : tr.source_account = a := hst.trans hta
      rw [if_pos hta, if_pos hsa, if_pos hta, ← hta, ← hst, hv]
      simp only [Option.getD_some]
      ring
    · have hsa : ¬tr.source_account = a := fun h => hta (hst ▸ h)
      rw [if_neg hta, if_neg hsa, if_neg hsa, if_neg hta]
      ring
  · rw [show lookupA (setA s.cash tr.source_account (v - tr.amount)) tr.target_account
        = some w by rw [lookupA_setA, if_neg hst, hw]]
    simp only [cashOf, lookupA_setA]
    by_cases hta : tr.target_account = a
    · have hsa : ¬tr.source_account = a := fun h => hst (h.trans hta.symm)
      rw [if_pos hta, if_neg hsa, if_pos hta, ← hta, hw]
      simp only [Option.getD_some]
      ring
    · rw [if_neg hta, if_neg hta]
      by_cases hsa : tr.source_account = a
      · rw [if_pos hsa, if_pos hsa, ← hsa, hv]
        simp only [Option.getD_some]
        ring
      · rw [if_neg hsa, if_neg hsa]
        ring

theorem cashTotal_applyTransfer {s : EngineState} {tr : Transfer}
    (h1 : (lookupA s.cash tr.source_account).isSome = true)
    (h2 : (lookupA s.cash tr.target_account).isSome = true) :
    cashTotal (applyTransfer s tr) = cashTotal s := by
  obtain ⟨v, hv⟩ := Option.isSome_iff_exists.mp h1
  obtain ⟨w, hw⟩ := Option.isSome_iff_exists.mp h2
  unfold applyTransfer
  rw [hv]
  simp only
  by_cases hst : tr.source_account = tr.target_account
  · rw [show lookupA (setA s.cash tr.source_account (v - tr.amount)) tr.target_account
        = some (v - tr.amount) by rw [lookupA_setA, if_pos hst]]
    unfold cashTotal
    simp only
    rw [show setA (setA s.cash tr.source_account (v - tr.amount)) tr.target_account
          (v - tr.amount + tr.amount)
        = setA (setA s.cash tr.source_account (v - tr.amount)) tr.target_account v by
      congr 1; ring]
    rw [sumVals_setA_some _ _ _ (v - tr.amount)
      (by rw [lookupA_setA, if_pos hst]), sumVals_setA_some _ _ _ v hv]
    ring
  · rw [show lookupA (setA s.cash tr.source_account (v - tr.amount)) tr.target_account
        = some w by rw [lookupA_setA, if_neg hst, hw]]
    unfold cashTotal
    simp only
    rw [sumVals_setA_some _ _ _ w
      (by rw [lookupA_setA, if_neg hst, hw]), sumVals_setA_some _ _ _ v hv]
    ring

-- applyInvestment
theorem cashOf_applyInvestment (s : EngineState) (iv : Investment) (a : String) :
    cashOf (applyInvestment s iv) a = cashOf s a + invCashDelta a iv := by
  simp only [applyInvestment, invCashDelta]
  have hc : ∀ x, (lookupA (ensureAccount
      ⟨s.cash, s.portfolio, setA s.lastTxPrices iv.ticker iv.unit_price⟩
      iv.account).cash x).getD 0 = (lookupA s.cash x).getD 0 :=
    fun x => ensureAccount_cashOf
      ⟨s.cash, s.portfolio, setA s.lastTxPrices iv.ticker iv.unit_price⟩ iv.account x
  by_cases hb : iv.action = "BUY"
  · simp only [hb, String.reduceEq, reduceIte, cashOf, lookupA_setA]
    rw [hc iv.account]
    by_cases ha : iv.account = a
    · rw [if_pos ha, if_pos ha, ← ha]
      simp only [Option.getD_some]
      ring
    · rw [if_neg ha, if_neg ha, hc a]
      ring
  · by_cases hs : iv.action = "SELL"
    · simp only [hb, hs, String.reduceEq, reduceIte, cashOf, lookupA_setA]
      rw [hc iv.account]
      by_cases ha : iv.account = a
      · rw [if_pos ha, if_pos ha, ← ha]
        simp only [Option.getD_some]
      · rw [if_neg ha, if_neg ha, hc a]
        ring
    · simp only [hb, hs, String.reduceEq, reduceIte, cashOf]
      rw [hc a]
      by_cases ha : iv.account = a
      · rw [if_pos ha]; ring
      · rw [if_neg ha]; ring

theorem qtyOf_applyInvestment {s : EngineState} (hg : goodState s)
    (iv : Investment) (a tk : String) :
    qtyOf (applyInvestment s iv) a tk = qtyOf s a tk + invQtyDelta a tk iv := by
  simp only [applyInvestment, invQtyDelta, qtyOf]
  have hg1 : goodState ⟨s.cash, s.portfolio, setA s.lastTxPrices iv.ticker iv.unit_price⟩ :=
    fun p hp => hg p hp
  have hp : ∀ x, (lookupA (ensureAccount
      ⟨s.cash, s.portfolio, setA s.lastTxPrices iv.ticker iv.unit_price⟩
      iv.account).portfolio x).getD [] = (lookupA s.portfolio x).getD [] :=
    fun x => ensureAccount_portfolio_getD hg1 iv.account x
  by_cases hb : iv.action = "BUY"
  · simp only [hb, String.reduceEq, reduceIte, lookupA_setA]
    rw [hp iv.account]
    by_cases ha : iv.account = a
    · rw [if_pos ha]
      simp only [Option.getD_some, lookupA_setA]
      by_cases ht : iv.ticker = tk
      · rw [if_pos ht, ← ha, ← ht]
        simp [ha, ht]
      · rw [if_neg ht, if_neg ht, ← ha]
        simp [ht]
    · rw [if_neg ha, hp a]
      simp [ha]
  · by_cases hs : iv.action = "SELL"
    · simp only [hb, hs, String.reduceEq, reduceIte, lookupA_setA]
      rw [hp iv.account]
      by_cases ha : iv.account = a
      · rw [if_pos ha]
        simp only [Option.getD_some, lookupA_setA]
        by_cases ht : iv.ticker = tk
        · rw [if_pos ht, ← ha, ← ht]
          simp [ha, ht, sub_eq_add_neg]
        · rw [if_neg ht, if_neg ht, ← ha]
          simp [ht]
      · rw [if_neg ha, hp a]
        simp [ha]
    · simp only [hb, hs, String.reduceEq, reduceIte, lookupA_setA]
      rw [hp iv.account]
      by_cases ha : iv.account = a
      · rw [if_pos ha]
        simp only [Option.getD_some, lookupA_setA]
        by_cases ht : iv.ticker = tk
        · rw [if_pos ht, ← ha, ← ht]
          simp [hb, hs]
        · rw [if_neg ht, ← ha]
          simp [ht, hb, hs]
      · rw [if_neg ha, hp a]
        simp [ha]

theorem isSome_applyInvestment_mono {s : EngineState} {b : String} (iv : Investment)
    (h : (lookupA s.cash b).isSome = true) :
    (lookupA (applyInvestment s iv).cash b).isSome = true := by
  have h1 : (lookupA (ensureAccount
      ⟨s.cash, s.portfolio, setA s.lastTxPrices iv.ticker iv.unit_price⟩
      iv.account).cash b).isSome = true :=
    ensureAccount_isSome_mono iv.account h
  simp only [applyInvestment]
  by_cases hb : iv.action = "BUY"
  · simp only [hb, String.reduceEq, reduceIte, lookupA_setA]
    by_cases hx : iv.account = b
    · simp [hx]
    · simp only [if_neg hx]
      exact h1
  · by_cases hs : iv.action = "SELL"
    · simp only [hb, hs, String.reduceEq, reduceIte, lookupA_setA]
      by_cases hx : iv.account = b
      · simp [hx]
      · simp only [if_neg hx]
        exact h1
    · simp only [hb, hs, String.reduceEq, reduceIte]
      exact h1

theorem isSome_applyInvestment_self (s : EngineState) (iv : Investment) :
    (lookupA (applyInvestment s iv).cash iv.account).isSome = true := by
  have h1 : (lookupA (ensureAccount
      ⟨s.cash, s.portfolio, setA s.lastTxPrices iv.ticker iv.unit_price⟩
      iv.account).cash iv.account).isSome = true :=
    ensureAccount_isSome_self _ iv.account
  simp only [applyInvestment]
  by_cases hb : iv.action = "BUY"
  · simp [hb, lookupA_setA]
  · by_cases hs : iv.action = "SELL"
    · simp [hb, hs, lookupA_setA]
    · simp only [hb, hs, String.reduceEq, reduceIte]
      exact h1

theorem isSome_applyInvestment_eq {s : EngineState} (iv : Investment)
    (hacc : (lookupA s.cash iv.account).isSome = true) (b : String) :
    (lookupA (applyInvestment s iv).cash b).isSome = (lookupA s.cash b).isSome := by
  have hacc1 : (lookupA (EngineState.mk s.cash s.portfolio
      (setA s.lastTxPrices iv.ticker iv.unit_price)).cash iv.account).isSome = true := hacc
  simp only [applyInvestment, ensureAccount_of_isSome hacc1]
  by_cases hb : iv.action = "BUY"
  · simp only [hb, String.reduceEq, reduceIte, lookupA_setA]
    by_cases hx : iv.account = b
    · rw [if_pos hx, ← hx, hacc]
      rfl
    · rw [if_neg hx]
  · by_cases hs : iv.action = "SELL"
    · simp only [hb, hs, String.reduceEq, reduceIte, lookupA_setA]
      by_cases hx : iv.account = b
      · rw [if_pos hx, ← hx, hacc]
        rfl
      · rw [if_neg hx]
    · simp only [hb, hs, String.reduceEq, reduceIte]

theorem goodState_applyInvestment {s : EngineState} (hg : goodState s)
    (iv : Investment) : goodState (applyInvestment s iv) := by
  have hg1 : goodState ⟨s.cash, s.portfolio, setA s.lastTxPrices iv.ticker iv.unit_price⟩ :=
    fun p hp => hg p hp
  have hg2 := goodState_ensureAccount hg1 iv.account
  have hself := ensureAccount_isSome_self
    ⟨s.cash, s.portfolio, setA s.lastTxPrices iv.ticker iv.unit_price⟩ iv.account
  simp only [applyInvestment]
  by_cases hb : iv.action = "BUY"
  · simp only [hb, String.reduceEq, reduceIte]
    intro p hp
    simp only at hp ⊢
    rcases mem_setA _ _ _ _ hp with h1 | h1
    · have := hg2 p h1
      simp only [lookupA_setA]
      by_cases hx : iv.account = p.1
      · simp [hx]
      · simp only [if_neg hx]
        exact this
    · simp [h1, lookupA_setA]
  · by_cases hs : iv.action = "SELL"
    · simp only [hb, hs, String.reduceEq, reduceIte]
      intro p hp
      simp only at hp ⊢
      rcases mem_setA _ _ _ _ hp with h1 | h1
      · have := hg2 p h1
        simp only [lookupA_setA]
        by_cases hx : iv.account = p.1
        · simp [hx]
        · simp only [if_neg hx]
          exact this
      · simp [h1, lookupA_setA]
    · simp only [hb, hs, String.reduceEq, reduceIte]
      intro p hp
      simp only at hp ⊢
      rcases mem_setA _ _ _ _ hp with h1 | h1
      · exact hg2 p h1
      · rw [h1]
        exact hself

-- portEmpty preservation (for ledgers with no investment orders)

theorem portEmpty_ensureAccount {s : EngineState} (he : portEmpty s) (a : String) :
    portEmpty (ensureAccount s a) := by
  unfold ensureAccount
  cases hl : lookupA s.cash a with
  | none =>
    intro p hp
    simp only at hp
    rcases mem_setA _ _ _ _ hp with h1 | h1
    · exact he p h1
    · rw [h1]
  | some v => exact he

theorem portEmpty_applyTransaction {s : EngineState} (he : portEmpty s)
    (t : Transaction) : portEmpty (applyTransaction s t) := by
  unfold applyTransaction
  intro p hp
  simp only at hp
  exact portEmpty_ensureAccount he t.account p hp

theorem portEmpty_applyTransfer {s : EngineState} (he : portEmpty s)
    (tr : Transfer) : portEmpty (applyTransfer s tr) := by
  intro p hp
  rw [applyTransfer_portfolio] at hp
  exact he p hp

theorem portEmpty_initState (L : Ledger) : portEmpty (initState L) := by
  unfold initState portEmpty
  simp only
  have : ∀ (l : List Account) (m : List (String × List (String × ℚ))),
      (∀ p ∈ m, p.2 = ([] : List (String × ℚ))) →
      ∀ p ∈ l.foldl (fun m a => setA m a.name []) m, p.2 = ([] : List (String × ℚ)) := by
    intro l
    induction l with
    | nil => intro m hm p hp; exact hm p hp
    | cons a l ih =>
      intro m hm p hp
      refine ih _ ?_ p hp
      intro q hq
      rcases mem_setA _ _ _ _ hq with h1 | h1
      · exact hm q h1
      · rw [h1]
  intro p hp
  exact this L.accounts [] (by intro q hq; simp at hq) p hp

-- snapshot step lemmas and seeding lemmas
-- misc alist lemmas

theorem isSome_setA {κ α : Type} [DecidableEq κ] (m : List (κ × α)) (k : κ) (v : α)
    (j : κ) : (lookupA (setA m k v) j).isSome
      = (decide (k = j) || (lookupA m j).isSome) := by
  rw [lookupA_setA]
  by_cases hkj : k = j
  · simp [hkj]
  · simp [hkj]

theorem isSome_lookupA_of_mem {κ α : Type} [DecidableEq κ] (m : List (κ × α))
    (p : κ × α) (h : p ∈ m) : (lookupA m p.1).isSome = true := by
  induction m with
  | nil => simp at h
  | cons q m ih =>
    rcases List.mem_cons.mp h with h1 | h1
    · rw [h1]
      simp [lookupA]
    · simp only [lookupA]
      by_cases hq : q.1 = p.1
      · simp [hq]
      · simp only [if_neg hq]
        exact ih h1

/-- Presence of keys after seeding two association lists with the same key
list is identical, whatever the seeded values. -/
theorem isSome_foldl_setA {α β : Type} (l : List Account)
    (f : Account → α) (g : Account → β) :
    ∀ (m0 : List (String × α)) (m1 : List (String × β)),
      (∀ j, (lookupA m0 j).isSome = (lookupA m1 j).isSome) →
      ∀ j, (lookupA (l.foldl (fun m a => setA m a.name (f a)) m0) j).isSome
        = (lookupA (l.foldl (fun m a => setA m a.name (g a)) m1) j).isSome := by
  induction l with
  | nil => intro m0 m1 h j; exact h j
  | cons a l ih =>
    intro m0 m1 h j
    simp only [List.foldl_cons]
    refine ih _ _ ?_ j
    intro x
    rw [isSome_setA, isSome_setA, h x]

theorem goodState_initState (L : Ledger) : goodState (initState L) := by
  intro p hp
  have hkey : ∀ j, (lookupA (initState L).portfolio j).isSome
      = (lookupA (initState L).cash j).isSome := by
    intro j
    exact isSome_foldl_setA L.accounts (fun _ => ([] : List (String × ℚ)))
      (fun a => a.initial_balance) [] [] (fun _ => rfl) j
  rw [← hkey p.1]
  exact isSome_lookupA_of_mem _ p hp

theorem tracksDeclared_initState (L : Ledger) : tracksDeclared L (initState L) :=
  fun _ h => h

theorem sum_map_add {E : Type} (l : List E) (f g : E → ℚ) :
    (l.map (fun e => f e + g e)).sum = (l.map f).sum + (l.map g).sum := by
  induction l with
  | nil => simp
  | cons e l ih =>
    simp only [List.map_cons, List.sum_cons, ih]
    ring

-- snapshot step lemmas

theorem isSome_snapApplyTx (m : List (String × ℚ)) (t : Transaction) (b : String) :
    (lookupA (snapApplyTx m t) b).isSome = (lookupA m b).isSome := by
  unfold snapApplyTx
  cases h : lookupA m t.account with
  | none => rfl
  | some v =>
    rw [isSome_setA]
    by_cases hx : t.account = b
    · rw [← hx, h]
      simp [hx]
    · simp [hx]

theorem getD_snapApplyTx {m : List (String × ℚ)} {t : Transaction}
    (h : (lookupA m t.account).isSome = true) (a : String) :
    (lookupA (snapApplyTx m t) a).getD 0 = (lookupA m a).getD 0 + txDelta a t := by
  obtain ⟨v, hv⟩ := Option.isSome_iff_exists.mp h
  unfold snapApplyTx txDelta txSigned
  rw [hv]
  simp only [lookupA_setA]
  by_cases hx : t.account = a
  · rw [if_pos hx, if_pos hx, ← hx, hv]
    simp only [Option.getD_some]
    by_cases hty : t.type = "INCOME"
    · simp [hty]
    · simp [hty]; ring
  · rw [if_neg hx, if_neg hx]
    ring

theorem isSome_snapApplyTransfer (m : List (String × ℚ)) (tr : Transfer) (b : String) :
    (lookupA (snapApplyTransfer m tr) b).isSome = (lookupA m b).isSome := by
  unfold snapApplyTransfer
  cases h1 : lookupA m tr.source_account with
  | none =>
    simp only
    cases h2 : lookupA m tr.target_account with
    | none => rfl
    | some v =>
      rw [isSome_setA]
      by_cases hx : tr.target_account = b
      · rw [← hx, h2]; simp [hx]
      · simp [hx]
  | some v =>
    simp only
    cases h2 : lookupA (setA m tr.source_account (v - tr.amount)) tr.target_account with
    | none =>
      rw [isSome_setA]
      by_cases hx : tr.source_account = b
      · rw [← hx, h1]; simp [hx]
      · simp [hx]
    | some w =>
      have hsrc : (lookupA m tr.source_account).isSome = true := by rw [h1]; rfl
      have htgt : (lookupA m tr.target_account).isSome = true := by
        by_cases hst : tr.source_account = tr.target_account
        · rw [← hst, h1]; rfl
        · rw [lookupA_setA, if_neg hst] at h2
          rw [h2]; rfl
      rw [isSome_setA, isSome_setA]
      by_cases htb : tr.target_account = b
      · rw [← htb, htgt]
        simp
      · by_cases hsb : tr.source_account = b
        · rw [← hsb, hsrc]
          simp
        · simp [htb, hsb]

theorem getD_snapApplyTransfer {m : List (String × ℚ)} {tr : Transfer}
    (h1 : (lookupA m tr.source_account).isSome = true)
    (h2 : (lookupA m tr.target_account).isSome = true) (a : String) :
    (lookupA (snapApplyTransfer m tr) a).getD 0
      = (lookupA m a).getD 0 + trDelta a tr := by
  obtain ⟨v, hv⟩ := Option.isSome_iff_exists.mp h1
  obtain ⟨w, hw⟩ := Option.isSome_iff_exists.mp h2
  unfold snapApplyTransfer trDelta
  rw [hv]
  simp only
  by_cases hst : tr.source_account = tr.target_account
  · rw [show lookupA (setA m tr.source_account (v - tr.amount)) tr.target_account
        = some (v - tr.amount) by rw [lookupA_setA, if_pos hst]]
    simp only [lookupA_setA]
    by_cases hta : tr.target_account = a
    · have hsa : tr.source_account = a := hst.trans hta
      rw [if_pos hta, if_pos hsa, if_pos hta, ← hta, ← hst, hv]
      simp only [Option.getD_some]
      ring
    · have hsa : ¬tr.source_account = a := fun h => hta (hst ▸ h)
      rw [if_neg hta, if_neg hsa, if_neg hsa, if_neg hta]
      ring
  · rw [show lookupA (setA m tr.source_account (v - tr.amount)) tr.target_account
        = some w by rw [lookupA_setA, if_neg hst, hw]]
    simp only [lookupA_setA]
    by_cases hta : tr.target_account = a
    · have hsa : ¬tr.source_account = a := fun h => hst (h.trans hta.symm)
      rw [if_pos hta, if_neg hsa, if_pos hta, ← hta, hw]
      simp only [Option.getD_some]
      ring
    · rw [if_neg hta, if_neg hta]
      by_cases hsa : tr.source_account = a
      · rw [if_pos hsa, if_pos hsa, ← hsa, hv]
        simp only [Option.getD_some]
        ring
      · rw [if_neg hsa, if_neg hsa]
        ring

theorem isSome_snapApplyInv_cash (st : List (String × ℚ) × List ((String × String) × ℚ))
    (iv : Investment) (b : String) :
    (lookupA (snapApplyInv st iv).1 b).isSome = (lookupA st.1 b).isSome := by
  unfold snapApplyInv
  cases h : lookupA st.1 iv.account with
  | none => rfl
  | some v =>
    simp only
    by_cases hb : iv.action = "BUY"
    · simp only [hb, String.reduceEq, reduceIte]
      rw [isSome_setA]
      by_cases hx : iv.account = b
      · rw [← hx, h]; simp [hx]
      · simp [hx]
    · by_cases hs : iv.action = "SELL"
      · simp only [hb, hs, String.reduceEq, reduceIte]
        rw [isSome_setA]
        by_cases hx : iv.account = b
        · rw [← hx, h]; simp [hx]
        · simp [hx]
      · simp only [hb, hs, String.reduceEq, reduceIte]

theorem getD_snapApplyInv_cash {st : List (String × ℚ) × List ((String × String) × ℚ)}
    {iv : Investment} (h : (lookupA st.1 iv.account).isSome = true) (a : String) :
    (lookupA (snapApplyInv st iv).1 a).getD 0
      = (lookupA st.1 a).getD 0 + invCashDelta a iv := by
  obtain ⟨v, hv⟩ := Option.isSome_iff_exists.mp h
  unfold snapApplyInv invCashDelta
  rw [hv]
  simp only
  by_cases hb : iv.action = "BUY"
  · simp only [hb, String.reduceEq, reduceIte, lookupA_setA]
    by_cases hx : iv.account = a
    · rw [if_pos hx, if_pos hx, ← hx, hv]
      simp only [Option.getD_some]
      ring
    · rw [if_neg hx, if_neg hx]
      ring
  · by_cases hs : iv.action = "SELL"
    · simp only [hb, hs, String.reduceEq, reduceIte, lookupA_setA]
      by_cases hx : iv.account = a
      · rw [if_pos hx, if_pos hx, ← hx, hv]
        simp only [Option.getD_some]
      · rw [if_neg hx, if_neg hx]
        ring
    · simp only [hb, hs, String.reduceEq, reduceIte]
      by_cases hx : iv.account = a
      · rw [if_pos hx]; ring
      · rw [if_neg hx]; ring

theorem getD_snapApplyInv_qty (st : List (String × ℚ) × List ((String × String) × ℚ))
    (iv : Investment) (a tk : String) :
    (lookupA (snapApplyInv st iv).2 (a, tk)).getD 0
      = (lookupA st.2 (a, tk)).getD 0 + invQtyDelta a tk iv := by
  unfold snapApplyInv invQtyDelta
  simp only
  by_cases hk : (iv.account, iv.ticker) = (a, tk)
  · have hconj : iv.account = a ∧ iv.ticker = tk :=
      ⟨congrArg Prod.fst hk, congrArg Prod.snd hk⟩
    by_cases hb : iv.action = "BUY"
    · simp only [hb, String.reduceEq, reduceIte, lookupA_setA, if_pos hk, hk]
      simp [hconj]
    · by_cases hs : iv.action = "SELL"
      · simp only [hb, hs, String.reduceEq, reduceIte, lookupA_setA, if_pos hk, hk]
        simp [hconj, sub_eq_add_neg]
      · simp only [hb, hs, String.reduceEq, reduceIte, lookupA_setA, if_pos hk, hk]
        simp [hconj, hb, hs]
  · have hcond : ¬(iv.account = a ∧ iv.ticker = tk) := by
      intro hc
      exact hk (by rw [hc.1, hc.2])
    by_cases hb : iv.action = "BUY"
    · simp only [hb, String.reduceEq, reduceIte, lookupA_setA, if_neg hk, if_neg hcond]
      ring
    · by_cases hs : iv.action = "SELL"
      · simp only [hb, hs, String.reduceEq, reduceIte, lookupA_setA, if_neg hk, if_neg hcond]
        ring
      · simp only [hb, hs, String.reduceEq, reduceIte, lookupA_setA, if_neg hk, if_neg hcond]
        ring

-- day-level characterizations
theorem tracksDeclared_processDay (L : Ledger) (d : ℤ) {s : EngineState}
    (h : tracksDeclared L s) : tracksDeclared L (processDay L d s) := by
  simp only [processDay]
  refine foldl_pres applyInvestment (tracksDeclared L) (fun _ => True)
    (fun s iv hs _ => fun b hb => isSome_applyInvestment_mono iv (hs b hb)) _ _
    ?_ (fun _ _ => trivial)
  refine foldl_pres applyTransfer (tracksDeclared L) (fun _ => True)
    (fun s tr hs _ => fun b hb => by rw [isSome_applyTransfer]; exact hs b hb) _ _
    ?_ (fun _ _ => trivial)
  exact foldl_pres applyTransaction (tracksDeclared L) (fun _ => True)
    (fun s t hs _ => fun b hb => isSome_applyTransaction_mono t (hs b hb)) _ _
    h (fun _ _ => trivial)

theorem goodState_processDay (L : Ledger) (d : ℤ) {s : EngineState}
    (h : goodState s) : goodState (processDay L d s) := by
  simp only [processDay]
  refine foldl_pres applyInvestment goodState (fun _ => True)
    (fun s iv hs _ => goodState_applyInvestment hs iv) _ _ ?_ (fun _ _ => trivial)
  refine foldl_pres applyTransfer goodState (fun _ => True)
    (fun s tr hs _ => goodState_applyTransfer hs tr) _ _ ?_ (fun _ _ => trivial)
  exact foldl_pres applyTransaction goodState (fun _ => True)
    (fun s t hs _ => goodState_applyTransaction hs t) _ _ h (fun _ _ => trivial)

theorem cashOf_processDay (L : Ledger) (d : ℤ) (s : EngineState) (a : String)
    (hP : tracksDeclared L s)
    (htr : ∀ tr ∈ L.transfers, declared L tr.source_account ∧ declared L tr.target_account) :
    cashOf (processDay L d s) a
      = cashOf s a
        + (((loadedTransactions L).filter (fun t => t.date = d)).map (txDelta a)).sum
        + ((L.transfers.filter (fun t => t.date = d)).map (trDelta a)).sum
        + ((L.investments.filter (fun t => t.date = d)).map (invCashDelta a)).sum := by
  simp only [processDay]
  have h1 := foldl_measure applyTransaction (fun s => cashOf s a) (txDelta a)
    (tracksDeclared L) (fun _ => True)
    (fun s t _ _ => cashOf_applyTransaction s t a)
    (fun s t hs _ => fun b hb => isSome_applyTransaction_mono t (hs b hb))
    ((loadedTransactions L).filter (fun t => t.date = d)) s hP (fun _ _ => trivial)
  have hP1 : tracksDeclared L
      (((loadedTransactions L).filter (fun t => t.date = d)).foldl applyTransaction s) :=
    foldl_pres applyTransaction (tracksDeclared L) (fun _ => True)
      (fun s t hs _ => fun b hb => isSome_applyTransaction_mono t (hs b hb)) _ s hP
      (fun _ _ => trivial)
  have h2 := foldl_measure applyTransfer (fun s => cashOf s a) (trDelta a)
    (tracksDeclared L)
    (fun tr => declared L tr.source_account ∧ declared L tr.target_account)
    (fun s tr hs hq => cashOf_applyTransfer (hs _ hq.1) (hs _ hq.2) a)
    (fun s tr hs _ => fun b hb => by rw [isSome_applyTransfer]; exact hs b hb)
    (L.transfers.filter (fun t => t.date = d))
    (((loadedTransactions L).filter (fun t => t.date = d)).foldl applyTransaction s) hP1
    (fun tr htrm => htr tr (List.mem_of_mem_filter htrm))
  have h3 := foldl_measure applyInvestment (fun s => cashOf s a) (invCashDelta a)
    (fun _ => True) (fun _ => True)
    (fun s iv _ _ => cashOf_applyInvestment s iv a)
    (fun _ _ _ _ => trivial)
    (L.investments.filter (fun t => t.date = d))
    ((L.transfers.filter (fun t => t.date = d)).foldl applyTransfer
      (((loadedTransactions L).filter (fun t => t.date = d)).foldl applyTransaction s))
    trivial (fun _ _ => trivial)
  dsimp only at h1 h2 h3
  rw [h3, h2, h1]

theorem qtyOf_processDay (L : Ledger) (d : ℤ) (s : EngineState) (a tk : String)
    (hg : goodState s) :
    qtyOf (processDay L d s) a tk
      = qtyOf s a tk
        + ((L.investments.filter (fun t => t.date = d)).map (invQtyDelta a tk)).sum := by
  simp only [processDay]
  have h1 := foldl_measure applyTransaction (fun s => qtyOf s a tk) (fun _ => (0 : ℚ))
    goodState (fun _ => True)
    (fun s t hs _ => by dsimp only; rw [qtyOf_applyTransaction hs]; ring)
    (fun s t hs _ => goodState_applyTransaction hs t)
    ((loadedTransactions L).filter (fun t => t.date = d)) s hg (fun _ _ => trivial)
  have hg1 : goodState (((loadedTransactions L).filter (fun t => t.date = d)).foldl
      applyTransaction s) :=
    foldl_pres applyTransaction goodState (fun _ => True)
      (fun s t hs _ => goodState_applyTransaction hs t) _ s hg (fun _ _ => trivial)
  have h2 := foldl_measure applyTransfer (fun s => qtyOf s a tk) (fun _ => (0 : ℚ))
    goodState (fun _ => True)
    (fun s tr hs _ => by dsimp only; rw [qtyOf_applyTransfer]; ring)
    (fun s tr hs _ => goodState_applyTransfer hs tr)
    (L.transfers.filter (fun t => t.date = d))
    (((loadedTransactions L).filter (fun t => t.date = d)).foldl applyTransaction s) hg1
    (fun _ _ => trivial)
  have hg2 : goodState ((L.transfers.filter (fun t => t.date = d)).foldl applyTransfer
      (((loadedTransactions L).filter (fun t => t.date = d)).foldl applyTransaction s)) :=
    foldl_pres applyTransfer goodState (fun _ => True)
      (fun s tr hs _ => goodState_applyTransfer hs tr) _ _ hg1 (fun _ _ => trivial)
  have h3 := foldl_measure applyInvestment (fun s => qtyOf s a tk) (invQtyDelta a tk)
    goodState (fun _ => True)
    (fun s iv hs _ => qtyOf_applyInvestment hs iv a tk)
    (fun s iv hs _ => goodState_applyInvestment hs iv)
    (L.investments.filter (fun t => t.date = d))
    ((L.transfers.filter (fun t => t.date = d)).foldl applyTransfer
      (((loadedTransactions L).filter (fun t => t.date = d)).foldl applyTransaction s))
    hg2 (fun _ _ => trivial)
  dsimp only at h1 h2 h3
  rw [h3, h2, h1]
  simp

theorem cashTotal_processDay (L : Ledger) (d : ℤ) (s : EngineState)
    (hP : tracksDeclared L s)
    (htr : ∀ tr ∈ L.transfers, declared L tr.source_account ∧ declared L tr.target_account)
    (hinv : L.investments = []) :
    cashTotal (processDay L d s)
      = cashTotal s
        + (((loadedTransactions L).filter (fun t => t.date = d)).map txSigned).sum := by
  simp only [processDay, hinv, List.filter_nil, List.foldl_nil]
  have h1 := foldl_measure applyTransaction cashTotal txSigned
    (tracksDeclared L) (fun _ => True)
    (fun s t _ _ => cashTotal_applyTransaction s t)
    (fun s t hs _ => fun b hb => isSome_applyTransaction_mono t (hs b hb))
    ((loadedTransactions L).filter (fun t => t.date = d)) s hP (fun _ _ => trivial)
  have hP1 : tracksDeclared L
      (((loadedTransactions L).filter (fun t => t.date = d)).foldl applyTransaction s) :=
    foldl_pres applyTransaction (tracksDeclared L) (fun _ => True)
      (fun s t hs _ => fun b hb => isSome_applyTransaction_mono t (hs b hb)) _ s hP
      (fun _ _ => trivial)
  have h2 := foldl_measure applyTransfer cashTotal (fun _ => (0 : ℚ))
    (tracksDeclared L)
    (fun tr => declared L tr.source_account ∧ declared L tr.target_account)
    (fun s tr hs hq => by dsimp only; rw [cashTotal_applyTransfer (hs _ hq.1) (hs _ hq.2)]; ring)
    (fun s tr hs _ => fun b hb => by rw [isSome_applyTransfer]; exact hs b hb)
    (L.transfers.filter (fun t => t.date = d))
    (((loadedTransactions L).filter (fun t => t.date = d)).foldl applyTransaction s) hP1
    (fun tr htrm => htr tr (List.mem_of_mem_filter htrm))
  rw [h2, h1]
  simp

-- replay-level characterizations
theorem tracksDeclared_replay (L : Ledger) (days : List ℤ) :
    tracksDeclared L (replay L days) :=
  foldl_pres (fun s d => processDay L d s) (tracksDeclared L) (fun _ => True)
    (fun _ d hs _ => tracksDeclared_processDay L d hs) days (initState L)
    (tracksDeclared_initState L) (fun _ _ => trivial)

theorem goodState_replay (L : Ledger) (days : List ℤ) :
    goodState (replay L days) :=
  foldl_pres (fun s d => processDay L d s) goodState (fun _ => True)
    (fun _ d hs _ => goodState_processDay L d hs) days (initState L)
    (goodState_initState L) (fun _ _ => trivial)

theorem cashOf_replay (L : Ledger) (a : String)
    (htr : ∀ tr ∈ L.transfers, declared L tr.source_account ∧ declared L tr.target_account)
    (days : List ℤ) :
    cashOf (replay L days) a
      = cashOf (initState L) a
        + (days.map (fun d =>
            (((loadedTransactions L).filter (fun t => t.date = d)).map (txDelta a)).sum
            + ((L.transfers.filter (fun t => t.date = d)).map (trDelta a)).sum
            + ((L.investments.filter (fun t => t.date = d)).map (invCashDelta a)).sum)).sum := by
  have h := foldl_measure (fun s d => processDay L d s) (fun s => cashOf s a)
    (fun d =>
      (((loadedTransactions L).filter (fun t => t.date = d)).map (txDelta a)).sum
      + ((L.transfers.filter (fun t => t.date = d)).map (trDelta a)).sum
      + ((L.investments.filter (fun t => t.date = d)).map (invCashDelta a)).sum)
    (tracksDeclared L) (fun _ => True)
    (fun s d hs _ => by
      dsimp only
      rw [cashOf_processDay L d s a hs htr]
      ring)
    (fun s d hs _ => tracksDeclared_processDay L d hs)
    days (initState L) (tracksDeclared_initState L) (fun _ _ => trivial)
  dsimp only at h
  exact h

theorem qtyOf_replay (L : Ledger) (a tk : String) (days : List ℤ) :
    qtyOf (replay L days) a tk
      = qtyOf (initState L) a tk
        + (days.map (fun d =>
            ((L.investments.filter (fun t => t.date = d)).map (invQtyDelta a tk)).sum)).sum := by
  have h := foldl_measure (fun s d => processDay L d s) (fun s => qtyOf s a tk)
    (fun d => ((L.investments.filter (fun t => t.date = d)).map (invQtyDelta a tk)).sum)
    goodState (fun _ => True)
    (fun s d hs _ => by
      dsimp only
      rw [qtyOf_processDay L d s a tk hs])
    (fun s d hs _ => goodState_processDay L d hs)
    days (initState L) (goodState_initState L) (fun _ _ => trivial)
  dsimp only at h
  exact h

theorem cashTotal_replay (L : Ledger)
    (htr : ∀ tr ∈ L.transfers, declared L tr.source_account ∧ declared L tr.target_account)
    (hinv : L.investments = []) (days : List ℤ) :
    cashTotal (replay L days)
      = cashTotal (initState L)
        + (days.map (fun d =>
            (((loadedTransactions L).filter (fun t => t.date = d)).map txSigned).sum)).sum := by
  have h := foldl_measure (fun s d => processDay L d s) cashTotal
    (fun d => (((loadedTransactions L).filter (fun t => t.date = d)).map txSigned).sum)
    (tracksDeclared L) (fun _ => True)
    (fun s d hs _ => by
      dsimp only
      rw [cashTotal_processDay L d s hs htr hinv])
    (fun s d hs _ => tracksDeclared_processDay L d hs)
    days (initState L) (tracksDeclared_initState L) (fun _ _ => trivial)
  exact h

-- membership of referenced accounts and event-date bounds

theorem mem_refAccounts_tx {L : Ledger} {t : Transaction}
    (h : t ∈ loadedTransactions L) : t.account ∈ refAccounts L := by
  unfold refAccounts
  simp only [List.mem_append, List.mem_map]
  exact Or.inl (Or.inl (Or.inl ⟨t, h, rfl⟩))

theorem mem_refAccounts_src {L : Ledger} {tr : Transfer}
    (h : tr ∈ L.transfers) : tr.source_account ∈ refAccounts L := by
  unfold refAccounts
  simp only [List.mem_append, List.mem_map]
  exact Or.inl (Or.inl (Or.inr ⟨tr, h, rfl⟩))

theorem mem_refAccounts_tgt {L : Ledger} {tr : Transfer}
    (h : tr ∈ L.transfers) : tr.target_account ∈ refAccounts L := by
  unfold refAccounts
  simp only [List.mem_append, List.mem_map]
  exact Or.inl (Or.inr ⟨tr, h, rfl⟩)

theorem mem_refAccounts_inv {L : Ledger} {iv : Investment}
    (h : iv ∈ L.investments) : iv.account ∈ refAccounts L := by
  unfold refAccounts
  simp only [List.mem_append, List.mem_map]
  exact Or.inr ⟨iv, h, rfl⟩

theorem startDate_le_tx (L : Ledger) (today : ℤ) :
    ∀ t ∈ loadedTransactions L, startDate L today ≤ t.date := by
  intro t ht
  refine startDate_le_eventDates L today t.date ?_
  unfold eventDates
  simp only [List.mem_append, List.mem_map]
  exact Or.inl (Or.inl ⟨t, ht, rfl⟩)

theorem startDate_le_transfer (L : Ledger) (today : ℤ) :
    ∀ tr ∈ L.transfers, startDate L today ≤ tr.date := by
  intro tr ht
  refine startDate_le_eventDates L today tr.date ?_
  unfold eventDates
  simp only [List.mem_append, List.mem_map]
  exact Or.inl (Or.inr ⟨tr, ht, rfl⟩)

theorem startDate_le_inv (L : Ledger) (today : ℤ) :
    ∀ iv ∈ L.investments, startDate L today ≤ iv.date := by
  intro iv ht
  refine startDate_le_eventDates L today iv.date ?_
  unfold eventDates
  simp only [List.mem_append, List.mem_map]
  exact Or.inr ⟨iv, ht, rfl⟩

/-- Filtering events by membership in the replayed calendar window equals
filtering by the upper bound alone, since no event predates the window. -/
theorem filter_dateRange_le {E : Type} (dateOf : E → ℤ) (l : List E) (lo D : ℤ)
    (hlo : ∀ e ∈ l, lo ≤ dateOf e) :
    l.filter (fun e => decide (dateOf e ∈ dateRange lo D))
      = l.filter (fun e => decide (dateOf e ≤ D)) := by
  apply List.filter_congr
  intro e he
  rw [decide_eq_decide, mem_dateRange]
  constructor
  · intro h; exact h.2
  · intro h; exact ⟨hlo e he, h⟩

-- cumulative characterizations up to a target date
theorem qtyOf_eq_zero_of_portEmpty {s : EngineState} (he : portEmpty s)
    (a tk : String) : qtyOf s a tk = 0 := by
  unfold qtyOf
  cases hl : lookupA s.portfolio a with
  | none => rfl
  | some h0 =>
    have h := he (a, h0) (lookupA_mem _ _ _ hl)
    simp only at h
    simp [h, lookupA]

theorem cashOf_replay_upTo (L : Ledger) (today D : ℤ) (a : String)
    (htr : ∀ tr ∈ L.transfers, declared L tr.source_account ∧ declared L tr.target_account) :
    cashOf (replay L (dateRange (startDate L today) D)) a
      = cashOf (initState L) a
        + (((loadedTransactions L).filter (fun t => decide (t.date ≤ D))).map (txDelta a)).sum
        + ((L.transfers.filter (fun t => decide (t.date ≤ D))).map (trDelta a)).sum
        + ((L.investments.filter (fun t => decide (t.date ≤ D))).map (invCashDelta a)).sum := by
  rw [cashOf_replay L a htr (dateRange (startDate L today) D)]
  rw [sum_map_add, sum_map_add]
  have g1 := sum_grouped_by_day (fun t : Transaction => t.date) (txDelta a)
    (dateRange (startDate L today) D) (nodup_dateRange _ _) (loadedTransactions L)
  have g2 := sum_grouped_by_day (fun t : Transfer => t.date) (trDelta a)
    (dateRange (startDate L today) D) (nodup_dateRange _ _) L.transfers
  have g3 := sum_grouped_by_day (fun t : Investment => t.date) (invCashDelta a)
    (dateRange (startDate L today) D) (nodup_dateRange _ _) L.investments
  rw [g1, g2, g3]
  have f1 := filter_dateRange_le (fun t : Transaction => t.date) (loadedTransactions L)
    (startDate L today) D (startDate_le_tx L today)
  have f2 := filter_dateRange_le (fun t : Transfer => t.date) L.transfers
    (startDate L today) D (startDate_le_transfer L today)
  have f3 := filter_dateRange_le (fun t : Investment => t.date) L.investments
    (startDate L today) D (startDate_le_inv L today)
  rw [f1, f2, f3]
  ring

theorem qtyOf_replay_upTo (L : Ledger) (today D : ℤ) (a tk : String) :
    qtyOf (replay L (dateRange (startDate L today) D)) a tk
      = ((L.investments.filter (fun t => decide (t.date ≤ D))).map (invQtyDelta a tk)).sum := by
  rw [qtyOf_replay L a tk (dateRange (startDate L today) D)]
  rw [qtyOf_eq_zero_of_portEmpty (portEmpty_initState L)]
  have g3 := sum_grouped_by_day (fun t : Investment => t.date) (invQtyDelta a tk)
    (dateRange (startDate L today) D) (nodup_dateRange _ _) L.investments
  rw [g3]
  have f3 := filter_dateRange_le (fun t : Investment => t.date) L.investments
    (startDate L today) D (startDate_le_inv L today)
  rw [f3]
  ring

theorem cashTotal_replay_upTo (L : Ledger) (today D : ℤ)
    (htr : ∀ tr ∈ L.transfers, declared L tr.source_account ∧ declared L tr.target_account)
    (hinv : L.investments = []) :
    cashTotal (replay L (dateRange (startDate L today) D))
      = cashTotal (initState L)
        + (((loadedTransactions L).filter (fun t => decide (t.date ≤ D))).map txSigned).sum := by
  rw [cashTotal_replay L htr hinv (dateRange (startDate L today) D)]
  have g1 := sum_grouped_by_day (fun t : Transaction => t.date) txSigned
    (dateRange (startDate L today) D) (nodup_dateRange _ _) (loadedTransactions L)
  rw [g1]
  have f1 := filter_dateRange_le (fun t : Transaction => t.date) (loadedTransactions L)
    (startDate L today) D (startDate_le_tx L today)
  rw [f1]

theorem isSomeEq_processDay (L : Ledger) (d : ℤ) {s : EngineState}
    (hall : ∀ a ∈ refAccounts L, declared L a)
    (hs : ∀ b, (lookupA s.cash b).isSome = (lookupA (initCash L) b).isSome) :
    ∀ b, (lookupA (processDay L d s).cash b).isSome
      = (lookupA (initCash L) b).isSome := by
  simp only [processDay]
  refine foldl_pres applyInvestment
    (fun s => ∀ b, (lookupA s.cash b).isSome = (lookupA (initCash L) b).isSome)
    (fun iv => declared L iv.account)
    (fun s iv hsp hq b => by
      rw [isSome_applyInvestment_eq iv (by rw [hsp iv.account]; exact hq), hsp b])
    _ _ ?_ (fun iv hm => hall _ (mem_refAccounts_inv (List.mem_of_mem_filter hm)))
  refine foldl_pres applyTransfer
    (fun s => ∀ b, (lookupA s.cash b).isSome = (lookupA (initCash L) b).isSome)
    (fun _ => True)
    (fun s tr hsp _ b => by rw [isSome_applyTransfer, hsp b])
    _ _ ?_ (fun _ _ => trivial)
  exact foldl_pres applyTransaction
    (fun s => ∀ b, (lookupA s.cash b).isSome = (lookupA (initCash L) b).isSome)
    (fun t => declared L t.account)
    (fun s t hsp hq b => by
      rw [isSome_applyTransaction_eq t (by rw [hsp t.account]; exact hq), hsp b])
    _ _ hs (fun t hm => hall _ (mem_refAccounts_tx (List.mem_of_mem_filter hm)))

theorem isSome_replay_eq (L : Ledger) (days : List ℤ)
    (hall : ∀ a ∈ refAccounts L, declared L a) (b : String) :
    (lookupA (replay L days).cash b).isSome = (lookupA (initCash L) b).isSome :=
  foldl_pres (fun s d => processDay L d s)
    (fun s => ∀ b, (lookupA s.cash b).isSome = (lookupA (initCash L) b).isSome)
    (fun _ => True)
    (fun _ d hsp _ => isSomeEq_processDay L d hall hsp)
    days (initState L) (fun _ => rfl) (fun _ _ => trivial) b

theorem isSome_snapshotState (L : Ledger) (D : ℤ) (b : String) :
    (lookupA (snapshotState L D).1 b).isSome = (lookupA (initCash L) b).isSome := by
  simp only [snapshotState]
  refine foldl_pres snapApplyInv
    (fun st => ∀ b, (lookupA st.1 b).isSome = (lookupA (initCash L) b).isSome)
    (fun _ => True)
    (fun st iv hst _ b => by rw [isSome_snapApplyInv_cash, hst b])
    _ _ ?_ (fun _ _ => trivial) b
  refine foldl_pres snapApplyTransfer
    (fun m => ∀ b, (lookupA m b).isSome = (lookupA (initCash L) b).isSome)
    (fun _ => True)
    (fun m tr hm _ b => by rw [isSome_snapApplyTransfer, hm b])
    _ _ ?_ (fun _ _ => trivial)
  exact foldl_pres snapApplyTx
    (fun m => ∀ b, (lookupA m b).isSome = (lookupA (initCash L) b).isSome)
    (fun _ => True)
    (fun m t hm _ b => by rw [isSome_snapApplyTx, hm b])
    _ _ (fun _ => rfl) (fun _ _ => trivial)

theorem getD_snapshotState_cash (L : Ledger) (D : ℤ) (a : String)
    (hallTx : ∀ t ∈ loadedTransactions L, declared L t.account)
    (hallTr : ∀ tr ∈ L.transfers, declared L tr.source_account ∧ declared L tr.target_account)
    (hallInv : ∀ iv ∈ L.investments, declared L iv.account) :
    (lookupA (snapshotState L D).1 a).getD 0
      = (lookupA (initCash L) a).getD 0
        + (((loadedTransactions L).filter (fun t => decide (t.date ≤ D))).map (txDelta a)).sum
        + ((L.transfers.filter (fun t => decide (t.date ≤ D))).map (trDelta a)).sum
        + ((L.investments.filter (fun t => decide (t.date ≤ D))).map (invCashDelta a)).sum := by
  simp only [snapshotState]
  have h1 := foldl_measure snapApplyTx (fun m => (lookupA m a).getD 0) (txDelta a)
    (fun m => ∀ b, (lookupA m b).isSome = (lookupA (initCash L) b).isSome)
    (fun t => declared L t.account)
    (fun m t hm hq => getD_snapApplyTx (by rw [hm]; exact hq) a)
    (fun m t hm _ b => by rw [isSome_snapApplyTx, hm b])
    ((loadedTransactions L).filter (fun t => t.date ≤ D)) (initCash L)
    (fun _ => rfl) (fun t hm => hallTx _ (List.mem_of_mem_filter hm))
  have hP1 : ∀ b, (lookupA (((loadedTransactions L).filter (fun t => t.date ≤ D)).foldl
      snapApplyTx (initCash L)) b).isSome = (lookupA (initCash L) b).isSome :=
    foldl_pres snapApplyTx
      (fun m => ∀ b, (lookupA m b).isSome = (lookupA (initCash L) b).isSome)
      (fun _ => True)
      (fun m t hm _ b => by rw [isSome_snapApplyTx, hm b])
      _ _ (fun _ => rfl) (fun _ _ => trivial)
  have h2 := foldl_measure snapApplyTransfer (fun m => (lookupA m a).getD 0) (trDelta a)
    (fun m => ∀ b, (lookupA m b).isSome = (lookupA (initCash L) b).isSome)
    (fun tr => declared L tr.source_account ∧ declared L tr.target_account)
    (fun m tr hm hq => getD_snapApplyTransfer
      (by rw [hm]; exact hq.1) (by rw [hm]; exact hq.2) a)
    (fun m tr hm _ b => by rw [isSome_snapApplyTransfer, hm b])
    (L.transfers.filter (fun t => t.date ≤ D))
    (((loadedTransactions L).filter (fun t => t.date ≤ D)).foldl snapApplyTx (initCash L))
    hP1 (fun tr hm => hallTr _ (List.mem_of_mem_filter hm))
  have hP2 : ∀ b, (lookupA ((L.transfers.filter (fun t => t.date ≤ D)).foldl
      snapApplyTransfer (((loadedTransactions L).filter (fun t => t.date ≤ D)).foldl
        snapApplyTx (initCash L))) b).isSome = (lookupA (initCash L) b).isSome :=
    foldl_pres snapApplyTransfer
      (fun m => ∀ b, (lookupA m b).isSome = (lookupA (initCash L) b).isSome)
      (fun _ => True)
      (fun m tr hm _ b => by rw [isSome_snapApplyTransfer, hm b])
      _ _ hP1 (fun _ _ => trivial)
  have h3 := foldl_measure snapApplyInv (fun st => (lookupA st.1 a).getD 0)
    (invCashDelta a)
    (fun st => ∀ b, (lookupA st.1 b).isSome = (lookupA (initCash L) b).isSome)
    (fun iv => declared L iv.account)
    (fun st iv hst hq => getD_snapApplyInv_cash (by rw [hst]; exact hq) a)
    (fun st iv hst _ b => by rw [isSome_snapApplyInv_cash, hst b])
    (L.investments.filter (fun t => t.date ≤ D))
    (((L.transfers.filter (fun t => t.date ≤ D)).foldl snapApplyTransfer
      (((loadedTransactions L).filter (fun t => t.date ≤ D)).foldl snapApplyTx
        (initCash L))), ([] : List ((String × String) × ℚ)))
    hP2 (fun iv hm => hallInv _ (List.mem_of_mem_filter hm))
  dsimp only at h1 h2 h3
  rw [h3, h2, h1]

theorem getD_snapshotState_qty (L : Ledger) (D : ℤ) (a tk : String) :
    snapQtyOf L D a tk
      = ((L.investments.filter (fun t => decide (t.date ≤ D))).map
          (invQtyDelta a tk)).sum := by
  unfold snapQtyOf
  simp only [snapshotState]
  have h := foldl_measure snapApplyInv (fun st => (lookupA st.2 (a, tk)).getD 0)
    (invQtyDelta a tk) (fun _ => True) (fun _ => True)
    (fun st iv _ _ => getD_snapApplyInv_qty st iv a tk)
    (fun _ _ _ _ => trivial)
    (L.investments.filter (fun t => t.date ≤ D))
    (((L.transfers.filter (fun t => t.date ≤ D)).foldl snapApplyTransfer
      (((loadedTransactions L).filter (fun t => t.date ≤ D)).foldl snapApplyTx
        (initCash L))), ([] : List ((String × String) × ℚ)))
    trivial (fun _ _ => trivial)
  dsimp only at h
  rw [h]
  simp [lookupA]

-- no-investment helpers
theorem portEmpty_processDay (L : Ledger) (d : ℤ) {s : EngineState}
    (hinv : L.investments = []) (he : portEmpty s) :
    portEmpty (processDay L d s) := by
  simp only [processDay, hinv, List.filter_nil, List.foldl_nil]
  refine foldl_pres applyTransfer portEmpty (fun _ => True)
    (fun s tr hs _ => portEmpty_applyTransfer hs tr) _ _ ?_ (fun _ _ => trivial)
  exact foldl_pres applyTransaction portEmpty (fun _ => True)
    (fun s t hs _ => portEmpty_applyTransaction hs t) _ _ he (fun _ _ => trivial)

theorem portEmpty_replay (L : Ledger) (hinv : L.investments = []) (days : List ℤ) :
    portEmpty (replay L days) :=
  foldl_pres (fun s d => processDay L d s) portEmpty (fun _ => True)
    (fun _ d hs _ => portEmpty_processDay L d hinv hs) days (initState L)
    (portEmpty_initState L) (fun _ _ => trivial)

theorem holdingsValue_nil (L : Ledger) (lo : ℤ) (ltp : List (String × ℚ)) (d : ℤ) :
    holdingsValue L lo ltp d [] = 0 := rfl

theorem accInvestVal_eq_zero {s : EngineState} (he : portEmpty s)
    (L : Ledger) (lo d : ℤ) (a : String) : accInvestVal L lo s d a = 0 := by
  unfold accInvestVal
  cases hl : lookupA s.portfolio a with
  | none => rfl
  | some h0 =>
    have h := he (a, h0) (lookupA_mem _ _ _ hl)
    simp only at h
    rw [h]
    rfl

/-- With no investments replayed, a row's Total Wealth is just the total
tracked cash. -/
theorem totalWealth_rowAt_of_no_investments (L : Ledger) (today d : ℤ)
    (hinv : L.investments = []) :
    totalWealth (rowAt L today d)
      = cashTotal (replay L (dateRange (startDate L today) d)) := by
  unfold totalWealth rowAt mkRecord cashTotal sumVals
  simp only [List.map_map]
  have he := portEmpty_replay L hinv (dateRange (startDate L today) d)
  rw [List.map_congr_left]
  intro p hp
  simp only [Function.comp]
  rw [accInvestVal_eq_zero he]
  ring

theorem sumVals_foldl_setA (l : List Account) :
    ∀ (m0 : List (String × ℚ)),
      (l.map (fun a => a.name)).Nodup →
      (∀ a ∈ l, lookupA m0 a.name = none) →
      sumVals (l.foldl (fun m a => setA m a.name a.initial_balance) m0)
        = sumVals m0 + (l.map (fun a => a.initial_balance)).sum := by
  induction l with
  | nil => intro m0 _ _; simp
  | cons a l ih =>
    intro m0 hnd hnone
    simp only [List.map_cons, List.nodup_cons] at hnd
    simp only [List.foldl_cons, List.map_cons, List.sum_cons]
    rw [ih (setA m0 a.name a.initial_balance) hnd.2 ?_]
    · rw [sumVals_setA_none m0 a.name a.initial_balance
        (hnone a (List.mem_cons_self a l))]
      ring
    · intro b hb
      rw [lookupA_setA]
      have hne : ¬a.name = b.name := by
        intro h
        exact hnd.1 (h ▸ List.mem_map_of_mem (fun x => x.name) hb)
      rw [if_neg hne]
      exact hnone b (List.mem_cons_of_mem a hb)

theorem cashTotal_initState (L : Ledger)
    (hnames : (L.accounts.map (fun a => a.name)).Nodup) :
    cashTotal (initState L) = (L.accounts.map (fun a => a.initial_balance)).sum := by
  unfold cashTotal initState initCash
  simp only
  rw [sumVals_foldl_setA L.accounts [] hnames (fun _ _ => rfl)]
  simp [sumVals]

-- --- CLAIM THEOREMS ---

/-- Claim C1, counterexample: in a ledger whose only transfer sends 100 from
declared account A to undeclared account B, the day-0 row's Total Wealth is
−100, while initial balances plus signed transactions plus signed transfers
(minus on source, plus on target) sum to 0: the target leg was silently
dropped, so the claimed conservation fails. -/
theorem c1_counterexample :
    (history ledgerT 0).map totalWealth = [-100]
    ∧ ((-100 : ℚ)
        ≠ (ledgerT.accounts.map (fun a => a.initial_balance)).sum
          + (((loadedTransactions ledgerT).filter (fun t => t.date ≤ 0)).map txSigned).sum
          + ((ledgerT.transfers.filter (fun t => t.date ≤ 0)).map
              (fun tr => -tr.amount + tr.amount)).sum) := by
  constructor
  · norm_num [history, timeline, rowAt, mkRecord, totalWealth, sumVals, replay,
      processDay, initState, initCash, applyTransaction, applyTransfer,
      applyInvestment, ensureAccount, loadedTransactions, eventDates, startDate,
      listMin, dateRange, rangeFrom, accInvestVal, holdingsValue, usedPrice,
      marketPrice, ffillCell, lastPriceDateLe, pricesAt, listMax, lookupA, setA,
      String.reduceEq, reduceIte, ledgerT]
    try simp only [String.reduceEq, reduceIte]
    try norm_num
  · norm_num [loadedTransactions, txSigned, ledgerT]

/-- Claim C1, amended: for a ledger with zero investment orders, duplicate-free
declared account names, and every transfer endpoint declared in the accounts
table, every output row's Total Wealth equals the sum of initial balances plus
all signed non-excluded transaction amounts plus all signed transfer amounts
dated on or before that row's date. -/
theorem c1_amended (L : Ledger) (today : ℤ) (r : DayRecord) (D : ℤ)
    (hnames : (L.accounts.map (fun a => a.name)).Nodup)
    (hinv : L.investments = [])
    (htr : ∀ tr ∈ L.transfers,
      declared L tr.source_account ∧ declared L tr.target_account)
    (hr : r ∈ calculate_wealth_evolution L today)
    (hD : r.date = D) :
    totalWealth r
      = (L.accounts.map (fun a => a.initial_balance)).sum
        + (((loadedTransactions L).filter (fun t => t.date ≤ D)).map txSigned).sum
        + ((L.transfers.filter (fun t => t.date ≤ D)).map
            (fun tr => -tr.amount + tr.amount)).sum := by
  unfold calculate_wealth_evolution at hr
  split at hr
  · simp at hr
  · unfold history at hr
    obtain ⟨d, hd, rfl⟩ := List.mem_map.mp hr
    have hdate : d = D := hD
    rw [← hdate]
    rw [totalWealth_rowAt_of_no_investments L today d hinv]
    rw [cashTotal_replay_upTo L today d htr hinv]
    rw [cashTotal_initState L hnames]
    have hz : ((L.transfers.filter (fun t => t.date ≤ d)).map
        (fun tr => -tr.amount + tr.amount)).sum = 0 := by
      induction L.transfers.filter (fun t => t.date ≤ d) with
      | nil => rfl
      | cons x xs ih => simp [ih]
    rw [hz]
    ring

/-- Claim C1, witness of the amended theorem at the spec's Scenario A:
initial balance 1000, INCOME 500 on day 2, EXPENSE 200 on day 3 give Total
Wealth 1300 on day 3. -/
theorem c1_amended_witness : totalWealth (rowAt ledgerA 3 3) = 1300 := by
  have h := c1_amended ledgerA 3 (rowAt ledgerA 3 3) 3
    (by decide) (by decide) (by simp [ledgerA])
    (by
      unfold calculate_wealth_evolution
      rw [if_neg (by decide)]
      exact List.mem_map_of_mem _ (by decide))
    rfl
  rw [h]
  norm_num [loadedTransactions, txSigned, ledgerA, String.reduceEq, reduceIte]
  try simp only [String.reduceEq, reduceIte]
  try norm_num

/-- Claim C2, counterexample: with cached prices for T only at day 1
(2024-01-01, value 10) and day 10 (2024-01-10, value 20), a timeline opening
at day −6 (2023-12-25), and no transacted fallback price, the engine's price
for day −6 is 0, not the backward-filled 10 the claim asserts. -/
theorem c2_counterexample :
    usedPrice ledgerF (startDate ledgerF 12)
      (replay ledgerF (dateRange (startDate ledgerF 12) (-6))).lastTxPrices "T" (-6) = 0
    ∧ (0 : ℚ) ≠ 10 := by
  constructor
  · norm_num [usedPrice, marketPrice, ffillCell, lastPriceDateLe, pricesAt,
      listMax, replay, processDay, initState, initCash, applyTransaction,
      applyTransfer, applyInvestment, ensureAccount, loadedTransactions,
      eventDates, startDate, listMin, dateRange, rangeFrom, lookupA, setA,
      String.reduceEq, reduceIte, ledgerF]
    try simp only [String.reduceEq, reduceIte]
    try norm_num
  · norm_num

/-- Claim C2, amended: forward-filling works inside and after the cached
range (day 5 uses day 1's price 10, day 12 uses day 10's price 20), but a
date strictly before the first cached price gets no backward fill: with no
transacted fallback its price is zero. -/
theorem c2_amended :
    usedPrice ledgerF (startDate ledgerF 12)
      (replay ledgerF (dateRange (startDate ledgerF 12) 5)).lastTxPrices "T" 5 = 10
    ∧ usedPrice ledgerF (startDate ledgerF 12)
        (replay ledgerF (dateRange (startDate ledgerF 12) 12)).lastTxPrices "T" 12 = 20
    ∧ usedPrice ledgerF (startDate ledgerF 12)
        (replay ledgerF (dateRange (startDate ledgerF 12) (-6))).lastTxPrices "T" (-6)
        = 0 := by
  refine ⟨?_, ?_, ?_⟩ <;>
  · norm_num [usedPrice, marketPrice, ffillCell, lastPriceDateLe, pricesAt,
      listMax, replay, processDay, initState, initCash, applyTransaction,
      applyTransfer, applyInvestment, ensureAccount, loadedTransactions,
      eventDates, startDate, listMin, dateRange, rangeFrom, lookupA, setA,
      String.reduceEq, reduceIte, ledgerF]
    try simp only [String.reduceEq, reduceIte]
    try norm_num

/-- Claim C3, counterexample: a transfer of 100 from declared A to undeclared
B leaves B untracked (not auto-created with the credit applied): after the
replay B has no cash entry at all while A was debited, so the transfer's
target effect was silently dropped, contradicting the claimed auto-creation. -/
theorem c3_counterexample :
    lookupA (replay ledgerT (dateRange (startDate ledgerT 0) 0)).cash "B" = none
    ∧ lookupA (replay ledgerT (dateRange (startDate ledgerT 0) 0)).cash "A"
        = some (-100) := by
  constructor <;>
  · norm_num [replay, processDay, initState, initCash, applyTransaction,
      applyTransfer, applyInvestment, ensureAccount, loadedTransactions,
      eventDates, startDate, listMin, dateRange, rangeFrom, lookupA, setA,
      String.reduceEq, reduceIte, ledgerT]
    try simp only [String.reduceEq, reduceIte]
    try norm_num

/-- Claim C3, amended: transactions and investment orders do auto-create a
missing account and apply their full cash effect to it, but transfers do
not: a transfer leg whose account is unknown is silently skipped, leaving
the account untracked. -/
theorem c3_amended (s : EngineState) (t : Transaction) (iv : Investment)
    (tr : Transfer) :
    ((lookupA (applyTransaction s t).cash t.account).isSome = true
      ∧ cashOf (applyTransaction s t) t.account = cashOf s t.account + txSigned t)
    ∧ ((lookupA (applyInvestment s iv).cash iv.account).isSome = true
      ∧ cashOf (applyInvestment s iv) iv.account
          = cashOf s iv.account + invCashDelta iv.account iv)
    ∧ (lookupA s.cash tr.source_account = none →
        lookupA (applyTransfer s tr).cash tr.source_account = none)
    ∧ (lookupA s.cash tr.target_account = none →
        lookupA (applyTransfer s tr).cash tr.target_account = none) := by
  refine ⟨⟨isSome_applyTransaction_self s t, ?_⟩,
    ⟨isSome_applyInvestment_self s iv, ?_⟩, ?_, ?_⟩
  · rw [cashOf_applyTransaction s t t.account]
    unfold txDelta
    rw [if_pos rfl]
  · rw [cashOf_applyInvestment s iv iv.account]
  · intro hsrc
    unfold applyTransfer
    rw [hsrc]
    dsimp only
    cases htgt : lookupA s.cash tr.target_account with
    | none => exact hsrc
    | some w =>
      dsimp only
      rw [lookupA_setA]
      have hne : ¬tr.target_account = tr.source_account := by
        intro h
        rw [h, hsrc] at htgt
        cases htgt
      rw [if_neg hne]
      exact hsrc
  · intro htgt
    unfold applyTransfer
    cases hsrc : lookupA s.cash tr.source_account with
    | none =>
      dsimp only
      rw [htgt]
      dsimp only
      exact htgt
    | some v =>
      dsimp only
      have hne : ¬tr.source_account = tr.target_account := by
        intro h
        rw [← h, hsrc] at htgt
        cases htgt
      have hl : lookupA (setA s.cash tr.source_account (v - tr.amount))
          tr.target_account = none := by
        rw [lookupA_setA, if_neg hne]
        exact htgt
      rw [hl]
      dsimp only
      rw [lookupA_setA, if_neg hne]
      exact htgt

/-- Claim C3, witness: a transaction auto-creates account C with its amount,
while a transfer whose source is unknown leaves that source untracked. -/
theorem c3_amended_witness :
    cashOf (applyTransaction ⟨[], [], []⟩ ⟨0, "C", 7, "INCOME", false⟩) "C" = 7
    ∧ lookupA (applyTransfer ⟨[], [], []⟩ ⟨0, "A", "B", 100⟩).cash "A" = none := by
  have h := c3_amended ⟨[], [], []⟩ ⟨0, "C", 7, "INCOME", false⟩
    ⟨0, "C", "X", "BUY", 1, 2, 3, "X"⟩ ⟨0, "A", "B", 100⟩
  refine ⟨h.1.2.trans ?_, h.2.2.1 rfl⟩
  norm_num [cashOf, lookupA, txSigned, String.reduceEq, reduceIte]

/-- Claim C4, counterexample: for a ticker whose cache spans days 100..200
with today = 200, the sync fetches nothing at all, although the cached
minimum (day 100) is later than the hard-coded start (day 0 = 2020-01-01):
no backfill range is ever requested, contrary to the claim. -/
theorem c4_counterexample :
    fetchRange (some (100, 200)) 200 = none ∧ defaultFetchStart < 100 := by
  constructor
  · decide
  · decide

/-- Claim C4, amended: the sync takes no per-call start date. With no cached
rows it fetches [2020-01-01, today]; with cached rows it looks only at the
cached maximum, fetching [max+1, today] when the cache is stale and nothing
when the cached maximum reaches today; a cached minimum later than any
required start date is never backfilled. -/
theorem c4_amended (mn mx today : ℤ) :
    (defaultFetchStart ≤ today →
      fetchRange none today = some (defaultFetchStart, today))
    ∧ (today < defaultFetchStart → fetchRange none today = none)
    ∧ (mx < today → fetchRange (some (mn, mx)) today = some (mx + 1, today))
    ∧ (today ≤ mx → fetchRange (some (mn, mx)) today = none) := by
  have h0 : defaultFetchStart = 0 := rfl
  refine ⟨?_, ?_, ?_, ?_⟩ <;> intro h <;> simp only [fetchRange]
  · rw [if_neg (by omega)]
  · rw [if_pos (by omega)]
  · rw [if_neg (by omega), if_neg (by omega)]
  · rw [if_pos (by omega)]

/-- Claim C4, witness: a cache ending at day 150 with today = 200 triggers a
forward fetch of [151, 200]. -/
theorem c4_amended_witness :
    fetchRange (some (100, 150)) 200 = some (151, 200) :=
  (c4_amended 100 150 200).2.2.1 (by decide)

/-- Claim C5, counterexample: for a ledger whose single INCOME transaction
references an account absent from the accounts table, the engine auto-creates
the account and ends day 0 with cash 100, while the snapshot inspector drops
the transaction entirely and reports 0: the two replays disagree. -/
theorem c5_counterexample :
    cashOf (replay ledgerU (dateRange (startDate ledgerU 0) 0)) "A" = 100
    ∧ snapCashOf ledgerU 0 "A" = 0
    ∧ (100 : ℚ) ≠ 0 := by
  refine ⟨?_, ?_, ?_⟩ <;>
  · norm_num [replay, processDay, initState, initCash, applyTransaction,
      applyTransfer, applyInvestment, ensureAccount, loadedTransactions,
      eventDates, startDate, listMin, dateRange, rangeFrom, lookupA, setA,
      cashOf, snapCashOf, snapshotState, snapApplyTx, snapApplyTransfer,
      snapApplyInv, String.reduceEq, reduceIte, ledgerU]
    try simp only [String.reduceEq, reduceIte]
    try norm_num

/-- Claim C5, amended: when every account referenced by a non-excluded
transaction, a transfer or an investment order is declared in the accounts
table, the snapshot inspector at date D agrees exactly with the engine's
end-of-day-D state: identical cash maps (same tracked accounts, same
balances) and identical held quantities for every account and ticker. -/
theorem c5_amended (L : Ledger) (today D : ℤ)
    (hall : ∀ a ∈ refAccounts L, declared L a) :
    (∀ a, lookupA (snapshotState L D).1 a
        = lookupA (replay L (dateRange (startDate L today) D)).cash a)
    ∧ (∀ a tk, snapQtyOf L D a tk
        = qtyOf (replay L (dateRange (startDate L today) D)) a tk) := by
  have htr : ∀ tr ∈ L.transfers,
      declared L tr.source_account ∧ declared L tr.target_account :=
    fun tr h => ⟨hall _ (mem_refAccounts_src h), hall _ (mem_refAccounts_tgt h)⟩
  constructor
  · intro a
    apply option_eq_of_isSome_getD
    · rw [isSome_snapshotState, isSome_replay_eq L _ hall a]
    · rw [getD_snapshotState_cash L D a
        (fun _ h => hall _ (mem_refAccounts_tx h)) htr
        (fun _ h => hall _ (mem_refAccounts_inv h))]
      have he := cashOf_replay_upTo L today D a htr
      unfold cashOf at he
      rw [he]
      rfl
  · intro a tk
    rw [getD_snapshotState_qty L D a tk, qtyOf_replay_upTo L today D a tk]

/-- Claim C5, witness: on Scenario A's ledger the snapshot at day 2 and the
engine's day-2 state agree on the Main account. -/
theorem c5_amended_witness :
    lookupA (snapshotState ledgerA 2).1 "Main"
      = lookupA (replay ledgerA (dateRange (startDate ledgerA 3) 2)).cash "Main" :=
  (c5_amended ledgerA 3 2
    (by decide :
      ∀ a ∈ refAccounts ledgerA, (lookupA (initCash ledgerA) a).isSome = true)).1
    "Main"

/-- Claim C6: Scenario B holds on the code: Broker starts at 0; a day-1 BUY
of 10 X at unit price 100 with fees 5 leaves cash −1005 and holding 10; with
no market price the day-2 valuation falls back to the last transacted price
100, so Total Invest is 1000 and Total Wealth is −1005 + 1000 = −5. -/
theorem c6_scenarioB :
    cashOf (replay ledgerB (dateRange (startDate ledgerB 2) 1)) "Broker" = -1005
    ∧ qtyOf (replay ledgerB (dateRange (startDate ledgerB 2) 1)) "Broker" "X" = 10
    ∧ (rowAt ledgerB 2 2).totalInvest = 1000
    ∧ totalWealth (rowAt ledgerB 2 2) = -5 := by
  refine ⟨?_, ?_, ?_, ?_⟩ <;>
  · norm_num [cashOf, qtyOf, rowAt, mkRecord, totalWealth, sumVals, replay,
      processDay, initState, initCash, applyTransaction, applyTransfer,
      applyInvestment, ensureAccount, loadedTransactions, eventDates, startDate,
      listMin, dateRange, rangeFrom, accInvestVal, holdingsValue, usedPrice,
      marketPrice, ffillCell, lastPriceDateLe, pricesAt, listMax, lookupA, setA,
      String.reduceEq, reduceIte, ledgerB]
    try simp only [String.reduceEq, reduceIte]
    try norm_num

/-- Claim C7, counterexample: account B first appears in a day-1 transaction
while the timeline starts at day 0; B's output column exists but its day-0
cell is null (the record lacks the key), so not every account appearing in
the ledger has a defined numeric value on every row. -/
theorem c7_counterexample :
    hasColumn (calculate_wealth_evolution ledgerC 1) "B" = true
    ∧ columnValue (calculate_wealth_evolution ledgerC 1) "B" 0 = none
    ∧ columnValue (calculate_wealth_evolution ledgerC 1) "B" 1 = some 100 := by
  refine ⟨?_, ?_, ?_⟩ <;>
  · norm_num [hasColumn, columnValue, calculate_wealth_evolution, history,
      timeline, rowAt, mkRecord, replay, processDay, initState, initCash,
      applyTransaction, applyTransfer, applyInvestment, ensureAccount,
      loadedTransactions, eventDates, startDate, listMin, dateRange, rangeFrom,
      accInvestVal, holdingsValue, lookupA, setA, String.reduceEq, reduceIte,
      ledgerC]
    try simp only [String.reduceEq, reduceIte]
    try norm_num

/-- Claim C7, amended: every account declared in the accounts table has a
defined value in every output row from day one (its initial balance applies
from the first row); only auto-created accounts have null cells before their
first event, and transfer-only accounts get no column. -/
theorem c7_amended (L : Ledger) (today : ℤ) (a : String) (hd : declared L a) :
    ∀ r ∈ calculate_wealth_evolution L today,
      (lookupA r.accounts a).isSome = true := by
  intro r hr
  unfold calculate_wealth_evolution at hr
  split at hr
  · simp at hr
  · unfold history at hr
    obtain ⟨d, hdm, rfl⟩ := List.mem_map.mp hr
    unfold rowAt mkRecord
    simp only
    rw [lookupA_map_isSome]
    exact tracksDeclared_replay L _ a hd

/-- Claim C7, witness: declared account A has a defined cell on the first
row of the two-day output. -/
theorem c7_amended_witness :
    (lookupA (rowAt ledgerC 1 0).accounts "A").isSome = true := by
  have h := c7_amended ledgerC 1 "A"
    (by decide : (lookupA (initCash ledgerC) "A").isSome = true)
  refine h (rowAt ledgerC 1 0) ?_
  unfold calculate_wealth_evolution
  rw [if_neg (by decide)]
  exact List.mem_map_of_mem _ (by decide)

/-- Claim C8: for a non-empty ledger the output's date column is exactly the
gapless daily calendar from the determined start date (the minimum event
date, or today when only initial balances exist) through today: consecutive
dates differ by one, there are no duplicates, and a date appears exactly when
it lies between the start date and today. -/
theorem c8_calendar (L : Ledger) (today : ℤ)
    (hne : ((eventDates L).isEmpty && L.accounts.isEmpty) = false) :
    ((calculate_wealth_evolution L today).map (fun r => r.date)
        = dateRange (startDate L today) today)
    ∧ List.Chain' (fun x y => y = x + 1)
        ((calculate_wealth_evolution L today).map (fun r => r.date))
    ∧ ((calculate_wealth_evolution L today).map (fun r => r.date)).Nodup
    ∧ (∀ d, d ∈ (calculate_wealth_evolution L today).map (fun r => r.date)
        ↔ startDate L today ≤ d ∧ d ≤ today)
    ∧ (∀ d ∈ eventDates L, startDate L today ≤ d)
    ∧ (eventDates L = [] → startDate L today = today) := by
  have hdates : (calculate_wealth_evolution L today).map (fun r => r.date)
      = dateRange (startDate L today) today := by
    unfold calculate_wealth_evolution
    rw [if_neg (by simp [hne])]
    unfold history timeline
    rw [List.map_map]
    have hcomp : ((fun r : DayRecord => r.date) ∘ rowAt L today) = fun d => d := rfl
    rw [hcomp, List.map_id']
  refine ⟨hdates, ?_, ?_, ?_, startDate_le_eventDates L today, ?_⟩
  · rw [hdates]
    exact chain_dateRange _ _
  · rw [hdates]
    exact nodup_dateRange _ _
  · intro d
    rw [hdates]
    exact mem_dateRange _ _ d
  · intro h
    unfold startDate
    rw [h]
    rfl

/-- Claim C8, witness: on the two-event ledger the output dates are the
two-day calendar [0, 1]. -/
theorem c8_calendar_witness :
    (calculate_wealth_evolution ledgerC 1).map (fun r => r.date)
      = dateRange (startDate ledgerC 1) 1 :=
  (c8_calendar ledgerC 1 (by decide)).1

/-- Claim C9: a SELL whose quantity exceeds the held quantity is not
rejected: the replay step is total, the held quantity simply becomes
negative (old quantity minus sold quantity), and the engine still emits one
row per calendar day for any ledger. -/
theorem c9_oversell (s : EngineState) (iv : Investment)
    (hg : goodState s) (hsell : iv.action = "SELL")
    (hover : qtyOf s iv.account iv.ticker < iv.quantity) :
    (qtyOf (applyInvestment s iv) iv.account iv.ticker
        = qtyOf s iv.account iv.ticker - iv.quantity)
    ∧ qtyOf (applyInvestment s iv) iv.account iv.ticker < 0
    ∧ (∀ (L : Ledger) (d : ℤ),
        (history L d).length = (timeline L d).length) := by
  have h := qtyOf_applyInvestment hg iv iv.account iv.ticker
  have hdelta : invQtyDelta iv.account iv.ticker iv = -iv.quantity := by
    unfold invQtyDelta
    rw [if_pos ⟨rfl, rfl⟩, hsell]
    simp
  rw [h, hdelta]
  refine ⟨by ring, by linarith, ?_⟩
  intro L d
  unfold history
  exact List.length_map _ _

/-- Claim C9, witness: holding 5 of X and selling 10 leaves −5, with no
failure. -/
theorem c9_oversell_witness :
    qtyOf (applyInvestment ⟨[("A", 0)], [("A", [("X", 5)])], []⟩
      ⟨1, "A", "X", "SELL", 10, 2, 0, "X"⟩) "A" "X" = -5 := by
  have h := c9_oversell ⟨[("A", 0)], [("A", [("X", 5)])], []⟩
    ⟨1, "A", "X", "SELL", 10, 2, 0, "X"⟩
    (by decide :
      ∀ p ∈ [("A", [("X", (5:ℚ))])], (lookupA [("A", (0:ℚ))] p.1).isSome = true)
    rfl (by decide)
  refine h.1.trans ?_
  norm_num [qtyOf, lookupA, String.reduceEq, reduceIte]

/-- Claim C10: any transaction whose type is not exactly the string INCOME
is treated as an expense by both the engine and the snapshot inspector: the
owning account's cash decreases by the amount (for the snapshot, whenever the
account is tracked). -/
theorem c10_unknown_type_subtracts (s : EngineState) (m : List (String × ℚ))
    (t : Transaction) (hty : t.type ≠ "INCOME") :
    cashOf (applyTransaction s t) t.account = cashOf s t.account - t.amount
    ∧ ((lookupA m t.account).isSome = true →
        (lookupA (snapApplyTx m t) t.account).getD 0
          = (lookupA m t.account).getD 0 - t.amount) := by
  constructor
  · rw [cashOf_applyTransaction s t t.account]
    unfold txDelta txSigned
    rw [if_pos rfl, if_neg hty]
    ring
  · intro hm
    rw [getD_snapApplyTx hm t.account]
    unfold txDelta txSigned
    rw [if_pos rfl, if_neg hty]
    ring

/-- Claim C10, witness: a transaction of unknown type WITHDRAWAL for 5 on an
account holding 3 leaves −2 in both the engine and the snapshot. -/
theorem c10_unknown_type_subtracts_witness :
    cashOf (applyTransaction ⟨[("A", 3)], [("A", [])], []⟩
      ⟨0, "A", 5, "WITHDRAWAL", false⟩) "A" = -2
    ∧ (lookupA (snapApplyTx [("A", 3)]
        ⟨0, "A", 5, "WITHDRAWAL", false⟩) "A").getD 0 = -2 := by
  have h := c10_unknown_type_subtracts ⟨[("A", 3)], [("A", [])], []⟩ [("A", 3)]
    ⟨0, "A", 5, "WITHDRAWAL", false⟩ (by decide)
  refine ⟨h.1.trans ?_, (h.2 (by decide)).trans ?_⟩ <;>
    norm_num [cashOf, lookupA, String.reduceEq, reduceIte]

end LocalFinance
